import Mathlib

/-!
# Verification of the tsh job-control shell (`src/tsh_tested.c`)

This file gives a shallow embedding of the job-control core of the tiny
shell `tsh`: the fixed-capacity job table and its helper routines
(`clearjob`, `initjobs`, `freejid`, `addjob`, `deletejob`, `fgpid`,
`getjobpid`, `getjobjid`, `pid2jid`), the keyboard-signal handlers
(`sigint_handler`, `sigtstp_handler`), the child-status handler
(`sigchld_handler`), the `fg`/`bg` builtin (`do_bgfg`), the foreground
waiter (`waitfg`), and a small-step model of the whole shell (spawn path,
handlers, builtin commands) in which signal blocking and the
`child_finished` flag are explicit.

Machine integers are modelled as `Nat` (pids and signal numbers in the
shell are small positive values; no arithmetic in the embedded code can
overflow).  `printf`/`fprintf` output is modelled as a list of emitted
strings (one string per `printf` call, without the trailing newline).
`kill` calls are modelled as emitted `KillCall` records; a negative kill
target (process-group kill) is an `Int`.  The `verbose` flag is `0`
throughout, as in the default run of the shell, so the verbose-only
`printf` in `addjob` emits nothing.
-/

/-- Job states, with the same numeric values as the C `#define`s. -/
def UNDEF : Nat := 0

/-- Foreground state (C `FG`). -/
def FG : Nat := 1

/-- Background state (C `BG`). -/
def BG : Nat := 2

/-- Stopped state (C `ST`). -/
def ST' : Nat := 3

/-- Maximum number of jobs, C `MAXJOBS`. -/
def MAXJOBS : Nat := 16

/-- Per-job data, C `struct job_t`. -/
structure job_t where
  pid : Nat
  jid : Nat
  state : Nat
  cmdline : String
deriving DecidableEq, Repr

/-- C `clearjob`: the cleared entry (the C code clears in place; we model a
table slot as holding this value after clearing). -/
def clearjob : job_t := { pid := 0, jid := 0, state := UNDEF, cmdline := "" }

/-- C `initjobs`: the initial table of `MAXJOBS` cleared slots. -/
def initjobs : List job_t := List.replicate MAXJOBS clearjob

/-- Whether jid `j` is marked in `freejid`'s `taken` array: some entry of the
table has `jid = j`.  For `j ≥ 1` this is exactly the C condition, since the
C code only marks `taken[jobs[i].jid]` when `jobs[i].jid != 0`. -/
def jidTaken (jobs : List job_t) (j : Nat) : Bool :=
  jobs.any (fun e => e.jid == j)

/-- C `freejid`: smallest `i ∈ [1, MAXJOBS]` not taken, else `0`. -/
def freejid (jobs : List job_t) : Nat :=
  match (List.range' 1 MAXJOBS).find? (fun i => !(jidTaken jobs i)) with
  | some i => i
  | none => 0

/-- Helper for `addjob`: scan for the first slot with `pid = 0` and fill it,
as the C `for` loop does.  Returns the updated table and the C return value. -/
def addjobGo (pid jid st : Nat) (cmd : String) : List job_t → List job_t × Bool
  | [] => ([], false)
  | e :: r =>
      if e.pid = 0 then
        ({ pid := pid, jid := jid, state := st, cmdline := cmd } :: r, true)
      else
        let p := addjobGo pid jid st cmd r
        (e :: p.1, p.2)

/-- C `addjob`: returns the updated table, the C return value, and the
emitted output lines (the `verbose` printf is silent since `verbose = 0`). -/
def addjob (jobs : List job_t) (pid st : Nat) (cmd : String) :
    List job_t × Bool × List String :=
  if pid < 1 then (jobs, false, [])
  else
    let free := freejid jobs
    if free = 0 then (jobs, false, ["Tried to create too many jobs"])
    else
      let p := addjobGo pid free st cmd jobs
      (p.1, p.2, [])

/-- Helper for `deletejob`: clear the first slot whose pid matches. -/
def deletejobGo (pid : Nat) : List job_t → List job_t × Bool
  | [] => ([], false)
  | e :: r =>
      if e.pid = pid then (clearjob :: r, true)
      else
        let p := deletejobGo pid r
        (e :: p.1, p.2)

/-- C `deletejob`. -/
def deletejob (jobs : List job_t) (pid : Nat) : List job_t × Bool :=
  if pid < 1 then (jobs, false) else deletejobGo pid jobs

/-- C `fgpid`: pid of the first entry in state `FG`, else `0`. -/
def fgpid (jobs : List job_t) : Nat :=
  match jobs.find? (fun e => e.state == FG) with
  | some e => e.pid
  | none => 0

/-- C `getjobpid`: first entry with the given pid. -/
def getjobpid (jobs : List job_t) (pid : Nat) : Option job_t :=
  if pid < 1 then none else jobs.find? (fun e => e.pid == pid)

/-- C `getjobjid`: first entry with the given jid. -/
def getjobjid (jobs : List job_t) (jid : Nat) : Option job_t :=
  if jid < 1 then none else jobs.find? (fun e => e.jid == jid)

/-- C `pid2jid`. -/
def pid2jid (jobs : List job_t) (pid : Nat) : Nat :=
  if pid < 1 then 0
  else
    match jobs.find? (fun e => e.pid == pid) with
    | some e => e.jid
    | none => 0

/-- Mutation through the pointer returned by `getjobpid`: update the state
field of the first entry with the given pid (C `job->state = st`). -/
def updateStatePid (jobs : List job_t) (pid st : Nat) : List job_t :=
  match jobs with
  | [] => []
  | e :: r =>
      if e.pid = pid then { e with state := st } :: r
      else e :: updateStatePid r pid st

/-- Mutation through the pointer returned by `getjobjid`: update the state
field of the first entry with the given jid. -/
def updateStateJid (jobs : List job_t) (jid st : Nat) : List job_t :=
  match jobs with
  | [] => []
  | e :: r =>
      if e.jid = jid then { e with state := st } :: r
      else e :: updateStateJid r jid st

/-! ## Keyboard-signal handlers (`sigint_handler`, `sigtstp_handler`) -/

/-- A `kill` system call issued by the shell: its target argument (an `Int`,
since a process-group kill passes a negated pid) and the signal number. -/
structure KillCall where
  target : Int
  signal : Nat
deriving DecidableEq, Repr

/-- C `sigint_handler`: look up the foreground pid; if it is `0` do nothing,
otherwise `kill(foregroundPID, sig)` — note the target is the positive pid,
not the negated process-group id. -/
def sigint_handler (jobs : List job_t) (sig : Nat) : Option KillCall :=
  let foregroundPID := fgpid jobs
  if foregroundPID = 0 then none
  else some { target := (foregroundPID : Int), signal := sig }

/-- C `sigtstp_handler`: identical shape to `sigint_handler`. -/
def sigtstp_handler (jobs : List job_t) (sig : Nat) : Option KillCall :=
  let foregroundPID := fgpid jobs
  if foregroundPID = 0 then none
  else some { target := (foregroundPID : Int), signal := sig }

/-- A concrete job table with one foreground job of pid 7, for the keyboard
handler counterexample. -/
def c1table : List job_t :=
  { pid := 7, jid := 1, state := FG, cmdline := "sleep 5" } ::
    List.replicate 15 clearjob

/-- C1 (counterexample).  The claim states that the handlers send the signal
to the foreground job's entire process group "using the negated pid as the
kill target".  On the concrete table `c1table`, which has a foreground job
with pid 7, both handlers issue `kill` with target `7`, not `-7`: the code
calls `kill(foregroundPID, sig)` rather than `kill(-foregroundPID, sig)`. -/
theorem c1_counterexample :
    fgpid c1table ≠ 0 ∧
    sigint_handler c1table 2 = some { target := (7 : Int), signal := 2 } ∧
    sigint_handler c1table 2 ≠ some { target := (-7 : Int), signal := 2 } ∧
    sigtstp_handler c1table 20 = some { target := (7 : Int), signal := 20 } ∧
    sigtstp_handler c1table 20 ≠ some { target := (-7 : Int), signal := 20 } := by
  refine ⟨by decide, by decide, by decide, by decide, by decide⟩

/-- C1 (amended).  On every delivery of a keyboard interrupt (and
symmetrically a keyboard stop) while some job has state Foreground, the
handler forwards that same signal with the foreground job's positive pid as
the kill target (the single process, not the negated process-group target);
when no job is Foreground the handler performs no action and reports
nothing. -/
theorem c1_amended_handlers_target_fg_pid (jobs : List job_t) (sig : Nat) :
    (fgpid jobs = 0 →
      sigint_handler jobs sig = none ∧ sigtstp_handler jobs sig = none) ∧
    (fgpid jobs ≠ 0 →
      sigint_handler jobs sig =
          some { target := (fgpid jobs : Int), signal := sig } ∧
        sigtstp_handler jobs sig =
          some { target := (fgpid jobs : Int), signal := sig }) := by
  constructor
  · intro h
    simp [sigint_handler, sigtstp_handler, h]
  · intro h
    simp [sigint_handler, sigtstp_handler, h]

/-- Witness for C1 (amended) at the concrete table `c1table`. -/
theorem c1_witness :
    fgpid c1table ≠ 0 ∧
    sigint_handler c1table 2 = some { target := (7 : Int), signal := 2 } := by
  have h := (c1_amended_handlers_target_fg_pid c1table 2).2 (by decide)
  have e : fgpid c1table = 7 := by decide
  refine ⟨by decide, ?_⟩
  rw [e] at h
  exact h.1

/-! ## C8: `addjob` on a full table -/

/-- C8.  For every job table in which no jid in `[1, MAXJOBS]` is free, and
any positive pid, `addjob` fails (returns `false`), reports the table-full
error, and returns the table unchanged: no entry is created or mutated. -/
theorem c8_addjob_full_no_mutation (jobs : List job_t) (pid st : Nat)
    (cmd : String) (hpid : 1 ≤ pid)
    (hfull : ∀ j, 1 ≤ j → j ≤ MAXJOBS → jidTaken jobs j = true) :
    addjob jobs pid st cmd = (jobs, false, ["Tried to create too many jobs"]) := by
  have hfree : freejid jobs = 0 := by
    unfold freejid
    have hnone : (List.range' 1 MAXJOBS).find? (fun i => !(jidTaken jobs i)) = none := by
      rw [List.find?_eq_none]
      intro j hj
      have hj' : 1 ≤ j ∧ j < 1 + MAXJOBS := by
        have := List.mem_range'_1.mp hj
        exact this
      have : jidTaken jobs j = true := hfull j hj'.1 (by omega)
      simp [this]
    rw [hnone]
  unfold addjob
  have : ¬ pid < 1 := by omega
  simp [this, hfree]

/-- A concrete full table: 16 active jobs with jids 1 through 16. -/
def fullTable : List job_t :=
  (List.range' 1 MAXJOBS).map
    (fun j => { pid := 100 + j, jid := j, state := BG, cmdline := "c" })

/-- Witness for C8 at the concrete full table. -/
theorem c8_witness :
    addjob fullTable 200 BG "x" =
      (fullTable, false, ["Tried to create too many jobs"]) :=
  c8_addjob_full_no_mutation fullTable 200 BG "x" (by decide) (by decide)

/-! ## Child-status handler (`sigchld_handler`) -/

/-- A status returned by one successful `waitpid(-1, &status, WNOHANG | WUNTRACED)`
call: the child stopped, was terminated by a signal, or exited normally. -/
inductive WRes
  | stopped (sig : Nat)
  | signaled (sig : Nat)
  | exited (code : Nat)
deriving DecidableEq, Repr

/-- Whether a status reports a termination (by signal or normal exit). -/
def isTerm : WRes → Bool
  | WRes.stopped _ => false
  | WRes.signaled _ => true
  | WRes.exited _ => true

/-- The final outcome of the `waitpid` loop: `waitpid` returned `0` (children
remain but none changed status), or `-1` with the given `errno`. -/
inductive WEnd
  | noneReady
  | errE (e : Nat)
deriving DecidableEq, Repr

/-- Linux `ECHILD`; the C code compares `errno != 10`. -/
def ECHILD : Nat := 10

/-- The `Job [jid] (pid) stopped by signal n` message. -/
def stopMsg (jobs : List job_t) (p sg : Nat) : String :=
  "Job [" ++ toString (pid2jid jobs p) ++ "] (" ++ toString p ++
    ") stopped by signal " ++ toString sg

/-- The `Job [jid] (pid) terminated by signal n` message. -/
def termMsg (jobs : List job_t) (p sg : Nat) : String :=
  "Job [" ++ toString (pid2jid jobs p) ++ "] (" ++ toString p ++
    ") terminated by signal " ++ toString sg

/-- The reap-error message printed when `waitpid` fails with an errno other
than `ECHILD`. -/
def chldErrMsg (e : Nat) : String :=
  "The exorcism failed. Value of errno: " ++ toString e

/-- Result of one invocation of the child-status handler: the updated table,
the status changes left unexamined, the emitted lines, the `child_finished`
flag, whether the unguarded `targetjob->state` dereference hit a null
pointer, and whether the handler returned early out of the loop (the
stopped-child `return`, which skips the errno check). -/
structure ChldRes where
  table : List job_t
  queue : List (Nat × WRes)
  out : List String
  cf : Bool
  crashed : Bool
  early : Bool
deriving DecidableEq, Repr

/-- The `while ((result = waitpid(...)) > 0)` loop of C `sigchld_handler`,
over the list of available status changes.  A stopped child updates the
table entry found by `getjobpid` (a null result makes the C code dereference
a null pointer, recorded as `crashed`), prints the stopped message, sets
`child_finished` and returns.  A terminated child prints the
terminated-by-signal message when killed by a signal, sets `child_finished`
and is deleted from the table; the loop continues. -/
def sigchld_loop (jobs : List job_t) (cf : Bool) :
    List (Nat × WRes) → ChldRes
  | [] => { table := jobs, queue := [], out := [], cf := cf,
            crashed := false, early := false }
  | (p, WRes.stopped sg) :: rest =>
      match getjobpid jobs p with
      | none =>
          { table := jobs, queue := rest, out := [], cf := cf,
            crashed := true, early := false }
      | some _ =>
          { table := updateStatePid jobs p ST', queue := rest,
            out := [stopMsg jobs p sg], cf := true,
            crashed := false, early := true }
  | (p, WRes.signaled sg) :: rest =>
      let r := sigchld_loop (deletejob jobs p).1 true rest
      { r with out := termMsg jobs p sg :: r.out }
  | (p, WRes.exited _) :: rest =>
      sigchld_loop (deletejob jobs p).1 true rest

/-- The errno check after the loop: silent on the early return, on
`waitpid = 0` and on `ECHILD`; otherwise the error line is printed. -/
def chldFin (r : ChldRes) (w : WEnd) : ChldRes :=
  if r.crashed || r.early then r
  else
    match w with
    | WEnd.noneReady => r
    | WEnd.errE e =>
        if e = ECHILD then r else { r with out := r.out ++ [chldErrMsg e] }

/-- C `sigchld_handler`: run the reap loop, then the errno check. -/
def sigchld_handler (jobs : List job_t) (cf : Bool)
    (q : List (Nat × WRes)) (w : WEnd) : ChldRes :=
  chldFin (sigchld_loop jobs cf q) w

/-- Prepending an output line commutes with the errno check, which only
appends at the end. -/
theorem chldFin_prepend (r : ChldRes) (w : WEnd) (m : String) :
    chldFin { r with out := m :: r.out } w =
      { chldFin r w with out := m :: (chldFin r w).out } := by
  unfold chldFin
  cases w with
  | noneReady => split <;> simp_all
  | errE e =>
      by_cases hc : (r.crashed || r.early) = true <;> by_cases he : e = ECHILD <;>
        simp_all

/-- C5.  Case analysis of one handler invocation, for every table, every
head status change, every remainder of the status list and every final
`waitpid` outcome: a stopped child whose pid is in the table is set to
`Stopped`, the stopped-by-signal message is emitted, the status change is
recorded in `child_finished`, and the rest of the status list is left
unexamined (and the errno check is skipped); a child terminated by a signal
emits the terminated-by-signal message and, like a normal exit, is removed
from the table with the status change recorded, the loop continuing on the
rest; the no-children errno `ECHILD` (and the none-ready outcome) is
silently ignored, and any other errno is reported. -/
theorem c5_sigchld_handler_behavior (jobs : List job_t) (p sg code : Nat)
    (rest : List (Nat × WRes)) (cf : Bool) (w : WEnd) (e : Nat) :
    (getjobpid jobs p ≠ none →
      sigchld_handler jobs cf ((p, WRes.stopped sg) :: rest) w =
        { table := updateStatePid jobs p ST', queue := rest,
          out := [stopMsg jobs p sg], cf := true,
          crashed := false, early := true }) ∧
    (sigchld_handler jobs cf ((p, WRes.signaled sg) :: rest) w =
      { sigchld_handler (deletejob jobs p).1 true rest w with
          out := termMsg jobs p sg ::
            (sigchld_handler (deletejob jobs p).1 true rest w).out }) ∧
    (sigchld_handler jobs cf ((p, WRes.exited code) :: rest) w =
      sigchld_handler (deletejob jobs p).1 true rest w) ∧
    (sigchld_handler jobs cf [] WEnd.noneReady =
      { table := jobs, queue := [], out := [], cf := cf,
        crashed := false, early := false }) ∧
    (sigchld_handler jobs cf [] (WEnd.errE ECHILD) =
      { table := jobs, queue := [], out := [], cf := cf,
        crashed := false, early := false }) ∧
    (e ≠ ECHILD →
      sigchld_handler jobs cf [] (WEnd.errE e) =
        { table := jobs, queue := [], out := [chldErrMsg e], cf := cf,
          crashed := false, early := false }) := by
  refine ⟨?_, ?_, ?_, ?_, ?_, ?_⟩
  · intro h
    obtain ⟨j, hj⟩ := Option.ne_none_iff_exists'.mp h
    unfold sigchld_handler sigchld_loop chldFin
    simp [hj]
  · show chldFin (sigchld_loop jobs cf ((p, WRes.signaled sg) :: rest)) w = _
    have hl : sigchld_loop jobs cf ((p, WRes.signaled sg) :: rest) =
        { sigchld_loop (deletejob jobs p).1 true rest with
            out := termMsg jobs p sg ::
              (sigchld_loop (deletejob jobs p).1 true rest).out } := rfl
    rw [hl]
    exact chldFin_prepend _ w _
  · rfl
  · rfl
  · rfl
  · intro he
    unfold sigchld_handler sigchld_loop chldFin
    simp [he]

/-- A concrete table for the C5 witness: one stopped-to-be job. -/
def c5table : List job_t :=
  { pid := 9, jid := 1, state := FG, cmdline := "sleep 9" } ::
    List.replicate 15 clearjob

/-- Witness for C5: the stopped-child case and the non-ECHILD error case at
concrete inputs. -/
theorem c5_witness :
    (sigchld_handler c5table false [(9, WRes.stopped 20)] WEnd.noneReady =
      { table := updateStatePid c5table 9 ST', queue := [],
        out := [stopMsg c5table 9 20], cf := true,
        crashed := false, early := true }) ∧
    (sigchld_handler c5table false [] (WEnd.errE 4) =
      { table := c5table, queue := [], out := [chldErrMsg 4], cf := false,
        crashed := false, early := false }) :=
  ⟨(c5_sigchld_handler_behavior c5table 9 20 0 [] false WEnd.noneReady 4).1
      (by decide),
   (c5_sigchld_handler_behavior c5table 9 20 0 [] false WEnd.noneReady 4).2.2.2.2.2
      (by decide)⟩

/-! ## The `fg`/`bg` builtin (`do_bgfg`) -/

/-- Signal number of `SIGCONT` on Linux. -/
def SIGCONT : Nat := 18

/-- C `atoi` on a digit-prefixed argument: accumulate leading decimal
digits, stop at the first non-digit. -/
def atoiGo : List Char → Nat → Nat
  | [], a => a
  | c :: r, a => if c.isDigit then atoiGo r (a * 10 + (c.toNat - 48)) else a

/-- C `atoi` (for the nonnegative arguments the shell passes). -/
def atoi (s : List Char) : Nat := atoiGo s 0

/-- Result of one `do_bgfg` invocation: the table after the command, the
emitted lines, the `kill` calls issued, and the pid passed to `waitfg` when
the command was `fg` on an existing job. -/
structure BgfgRes where
  table : List job_t
  out : List String
  kills : List KillCall
  waited : Option Nat
deriving DecidableEq, Repr

/-- C `do_bgfg`.  `argv0` is the command name (`fg` or `bg`), `argv1` the
argument, as character lists (C strings).  A `%`-prefixed argument is a jid
looked up with `getjobjid`, otherwise the argument is a pid looked up with
`getjobpid`; a missing or unmatched argument is reported and nothing is
mutated.  On a match, `kill(-job->pid, SIGCONT)` is issued; `fg` sets the
job's state to `FG` and waits on it, `bg` prints the job line and sets the
state to `BG`. -/
def do_bgfg (jobs : List job_t) (argv0 : List Char)
    (argv1 : Option (List Char)) : BgfgRes :=
  match argv1 with
  | none =>
      { table := jobs,
        out := [String.mk argv0 ++ " command requires PID or %jobid argument"],
        kills := [], waited := none }
  | some a =>
      match a with
      | '%' :: restArg =>
          let jid := atoi restArg
          match getjobjid jobs jid with
          | none =>
              { table := jobs, out := ["%" ++ toString jid ++ ": No such job"],
                kills := [], waited := none }
          | some job =>
              let ks := [{ target := -(job.pid : Int), signal := SIGCONT }]
              if argv0 = "fg".toList then
                { table := updateStateJid jobs jid FG, out := [],
                  kills := ks, waited := some job.pid }
              else
                { table := updateStateJid jobs jid BG,
                  out := ["[" ++ toString job.jid ++ "] (" ++ toString job.pid ++
                    ") " ++ job.cmdline],
                  kills := ks, waited := none }
      | _ =>
          let pid := atoi a
          match getjobpid jobs pid with
          | none =>
              { table := jobs,
                out := ["(" ++ toString pid ++ "): No such process"],
                kills := [], waited := none }
          | some job =>
              let ks := [{ target := -(job.pid : Int), signal := SIGCONT }]
              if argv0 = "fg".toList then
                { table := updateStatePid jobs pid FG, out := [],
                  kills := ks, waited := some job.pid }
              else
                { table := updateStatePid jobs pid BG,
                  out := ["[" ++ toString job.jid ++ "] (" ++ toString job.pid ++
                    ") " ++ job.cmdline],
                  kills := ks, waited := none }

/-- C9.  For every jid argument that matches no job in the table, `bg %jid`
reports `No such job`, returns the table exactly as it was (no entry's pid,
jid, state or command line changes), issues no `kill`, and does not wait. -/
theorem c9_bg_no_such_job (jobs : List job_t) (a : List Char)
    (h : getjobjid jobs (atoi a) = none) :
    do_bgfg jobs "bg".toList (some ('%' :: a)) =
      { table := jobs, out := ["%" ++ toString (atoi a) ++ ": No such job"],
        kills := [], waited := none } := by
  unfold do_bgfg
  simp [h]

/-- A concrete table for the C9 witness: one background job with jid 1. -/
def c9table : List job_t :=
  { pid := 31, jid := 1, state := BG, cmdline := "sleep 31 &" } ::
    List.replicate 15 clearjob

/-- Witness for C9: `bg %5` on a table whose only job has jid 1. -/
theorem c9_witness :
    do_bgfg c9table "bg".toList (some ('%' :: "5".toList)) =
      { table := c9table, out := ["%" ++ toString (atoi "5".toList) ++ ": No such job"],
        kills := [], waited := none } :=
  c9_bg_no_such_job c9table "5".toList (by decide)

/-! ## The foreground waiter (`waitfg`) and its suspension race (C4)

`waitfg` runs `while (1) { if (!child_finished) sigsuspend(&myset); else
{ waitpid(pid, NULL, WNOHANG); break; } }` with `myset` empty, and it is
entered with `SIGCHLD` unblocked (`eval` unblocks before calling it).  The
model below makes the instant between the `child_finished` test and the
entry into `sigsuspend` explicit: `check` is the test, `gap` is after a
false test but before `sigsuspend` is entered, `suspended` is inside
`sigsuspend`, `done` is the loop exit.  A `sigDeliver` event is a `SIGCHLD`
delivery: the handler runs and records the status change (sets
`child_finished`), and it wakes `sigsuspend` only if the call had already
been entered.  A `progStep` event is the waiter executing; `sigsuspend`
does not return without a signal delivery, so `progStep` at `suspended`
changes nothing. -/

/-- Program points of `waitfg`. -/
inductive WaitfgPC
  | check
  | gap
  | suspended
  | done
deriving DecidableEq, Repr

/-- Events interleaved with `waitfg`: the waiter executing one step, or a
`SIGCHLD` delivery running `sigchld_handler` (which sets `child_finished`). -/
inductive WaitfgEv
  | progStep
  | sigDeliver
deriving DecidableEq, Repr

/-- State of the foreground waiter: its program point and the
`child_finished` flag. -/
structure WaitfgSt where
  pc : WaitfgPC
  child_finished : Bool
deriving DecidableEq, Repr

/-- One step of the waitfg interleaving. -/
def waitfg_step (s : WaitfgSt) : WaitfgEv → WaitfgSt
  | WaitfgEv.progStep =>
      match s.pc with
      | WaitfgPC.check =>
          if s.child_finished then { s with pc := WaitfgPC.done }
          else { s with pc := WaitfgPC.gap }
      | WaitfgPC.gap => { s with pc := WaitfgPC.suspended }
      | WaitfgPC.suspended => s
      | WaitfgPC.done => s
  | WaitfgEv.sigDeliver =>
      match s.pc with
      | WaitfgPC.suspended => { pc := WaitfgPC.check, child_finished := true }
      | WaitfgPC.done => s
      | _ => { s with child_finished := true }

/-- Run a sequence of events from a waitfg state. -/
def waitfg_run (s : WaitfgSt) (evs : List WaitfgEv) : WaitfgSt :=
  evs.foldl waitfg_step s

/-- C4 (code_bug).  The claim states that the waiter's suspension is atomic
with respect to signal delivery, so a notification recorded between the
check of the flag and the call to suspend is never lost.  In the code the
check and `sigsuspend` are not atomic: `SIGCHLD` is already unblocked when
`waitfg` runs, and `sigsuspend` is called with the empty mask.  Concretely:
starting at the check with `child_finished = 0`, let the test come out
false, then deliver the status-change signal (the handler records the
notification), then let the waiter enter `sigsuspend`.  The waiter is now
suspended even though the notification is recorded, and it stays suspended
for any number of further steps in which no other signal arrives: the
recorded status change is lost and the waiter sleeps past it. -/
theorem c4_waitfg_misses_notification :
    waitfg_run { pc := WaitfgPC.check, child_finished := false }
        [WaitfgEv.progStep, WaitfgEv.sigDeliver, WaitfgEv.progStep] =
      { pc := WaitfgPC.suspended, child_finished := true } ∧
    ∀ n : Nat,
      (waitfg_run { pc := WaitfgPC.suspended, child_finished := true }
          (List.replicate n WaitfgEv.progStep)).pc = WaitfgPC.suspended := by
  constructor
  · decide
  · intro n
    induction n with
    | zero => rfl
    | succ k ih =>
        rw [List.replicate_succ]
        exact ih

/-! ## C6: jid assignment over add/remove sequences -/

/-- An operation on the job table: `addjob` with a given pid, state and
command line, or `deletejob` with a given pid. -/
inductive TableOp
  | add (pid st : Nat) (cmd : String)
  | remove (pid : Nat)
deriving DecidableEq, Repr

/-- Apply one table operation. -/
def applyOp (t : List job_t) : TableOp → List job_t
  | TableOp.add p st c => (addjob t p st c).1
  | TableOp.remove p => (deletejob t p).1

/-- The table after a sequence of add/remove operations starting from the
empty (initialized) table. -/
def applyOps (ops : List TableOp) : List job_t :=
  ops.foldl applyOp initjobs

/-- Specification-side notion: jid `j` is currently used by an active job
(an entry with a nonzero pid). -/
def activeUses (t : List job_t) (j : Nat) : Prop :=
  ∃ e ∈ t, e.pid ≠ 0 ∧ e.jid = j

instance (t : List job_t) (j : Nat) : Decidable (activeUses t j) := by
  unfold activeUses
  infer_instance

/-- Well-formedness maintained by the table operations: a slot holds an
active job iff its jid is nonzero. -/
def wfTable (t : List job_t) : Prop :=
  ∀ e ∈ t, e.pid = 0 ↔ e.jid = 0

theorem wfTable_initjobs : wfTable initjobs := by
  intro e he
  have : e = clearjob := List.eq_of_mem_replicate he
  simp [this, clearjob]

theorem wfTable_addjobGo (t : List job_t) (pid jid st : Nat) (cmd : String)
    (h : wfTable t) (hp : pid ≠ 0) (hj : jid ≠ 0) :
    wfTable (addjobGo pid jid st cmd t).1 := by
  induction t with
  | nil => simpa [addjobGo] using h
  | cons e r ih =>
      by_cases he : e.pid = 0
      · intro x hx
        simp only [addjobGo, if_pos he] at hx
        rcases List.mem_cons.mp hx with hx | hx
        · simp [hx, hp, hj]
        · exact h x (List.mem_cons_of_mem e hx)
      · intro x hx
        simp only [addjobGo, if_neg he] at hx
        rcases List.mem_cons.mp hx with hx | hx
        · exact h x (hx ▸ List.mem_cons_self e r)
        · exact ih (fun y hy => h y (List.mem_cons_of_mem e hy)) x hx

theorem wfTable_addjob (t : List job_t) (pid st : Nat) (cmd : String)
    (h : wfTable t) : wfTable (addjob t pid st cmd).1 := by
  unfold addjob
  by_cases hp : pid < 1
  · simpa [hp]
  · simp only [if_neg hp]
    by_cases hf : freejid t = 0
    · simpa [hf]
    · simp only [hf, if_neg]
      have hj : freejid t ≠ 0 := hf
      exact wfTable_addjobGo t pid (freejid t) st cmd h (by omega) hj

theorem wfTable_deletejobGo (t : List job_t) (pid : Nat) (h : wfTable t) :
    wfTable (deletejobGo pid t).1 := by
  induction t with
  | nil => simpa [deletejobGo] using h
  | cons e r ih =>
      by_cases he : e.pid = pid
      · intro x hx
        simp only [deletejobGo, if_pos he] at hx
        rcases List.mem_cons.mp hx with hx | hx
        · simp [hx, clearjob]
        · exact h x (List.mem_cons_of_mem e hx)
      · intro x hx
        simp only [deletejobGo, if_neg he] at hx
        rcases List.mem_cons.mp hx with hx | hx
        · exact h x (hx ▸ List.mem_cons_self e r)
        · exact ih (fun y hy => h y (List.mem_cons_of_mem e hy)) x hx

theorem wfTable_deletejob (t : List job_t) (pid : Nat) (h : wfTable t) :
    wfTable (deletejob t pid).1 := by
  unfold deletejob
  by_cases hp : pid < 1
  · simpa [hp]
  · simpa [hp] using wfTable_deletejobGo t pid h

theorem wfTable_applyOps (ops : List TableOp) : wfTable (applyOps ops) := by
  suffices h : ∀ t, wfTable t → wfTable (ops.foldl applyOp t) from
    h initjobs wfTable_initjobs
  induction ops with
  | nil => exact fun t ht => ht
  | cons op rest ih =>
      intro t ht
      refine ih (applyOp t op) ?_
      cases op with
      | add p st c => exact wfTable_addjob t p st c ht
      | remove p => exact wfTable_deletejob t p ht

/-- The first element of `range' s n` satisfying `p` satisfies `p`, lies in
the range, and everything in the range before it falsifies `p`. -/
theorem find?_range'_first (p : Nat → Bool) (s n f : Nat)
    (h : (List.range' s n).find? p = some f) :
    p f = true ∧ s ≤ f ∧ f < s + n ∧ ∀ j, s ≤ j → j < f → p j = false := by
  induction n generalizing s with
  | zero => simp [List.range'] at h
  | succ n ih =>
      rw [List.range'_succ] at h
      by_cases hs : p s
      · rw [List.find?_cons_of_pos _ hs] at h
        have hf : f = s := by injection h with h; omega
        subst hf
        exact ⟨hs, le_refl _, by omega, fun j h1 h2 => absurd h1 (by omega)⟩
      · rw [List.find?_cons_of_neg _ hs] at h
        obtain ⟨h1, h2, h3, h4⟩ := ih (s + 1) h
        refine ⟨h1, by omega, by omega, fun j hj1 hj2 => ?_⟩
        by_cases hj : j = s
        · subst hj
          exact Bool.eq_false_iff.mpr hs
        · exact h4 j (by omega) hj2

/-- Characterization of a nonzero `freejid` result: it is the smallest jid
in `[1, MAXJOBS]` not taken by any table entry. -/
theorem freejid_spec (t : List job_t) (h : freejid t ≠ 0) :
    1 ≤ freejid t ∧ freejid t ≤ MAXJOBS ∧ jidTaken t (freejid t) = false ∧
      ∀ j, 1 ≤ j → j < freejid t → jidTaken t j = true := by
  cases hf : (List.range' 1 MAXJOBS).find? (fun i => !(jidTaken t i)) with
  | none =>
      exfalso
      apply h
      unfold freejid
      rw [hf]
  | some f =>
      have hfe : freejid t = f := by unfold freejid; rw [hf]
      rw [hfe]
      obtain ⟨h1, h2, h3, h4⟩ := find?_range'_first _ 1 MAXJOBS f hf
      refine ⟨h2, by omega, by simpa using h1, fun j hj1 hj2 => ?_⟩
      have := h4 j hj1 hj2
      simpa using this

theorem not_activeUses_of_not_taken (t : List job_t) (j : Nat)
    (h : jidTaken t j = false) : ¬ activeUses t j := by
  rintro ⟨e, he, -, hej⟩
  have : jidTaken t j = true := by
    unfold jidTaken
    rw [List.any_eq_true]
    exact ⟨e, he, by simp [hej]⟩
  rw [h] at this
  exact absurd this (by simp)

theorem activeUses_of_taken (t : List job_t) (j : Nat) (hwf : wfTable t)
    (hj : j ≠ 0) (h : jidTaken t j = true) : activeUses t j := by
  unfold jidTaken at h
  rw [List.any_eq_true] at h
  obtain ⟨e, he, hej⟩ := h
  have hej' : e.jid = j := by simpa using hej
  refine ⟨e, he, fun hp => ?_, hej'⟩
  have := (hwf e he).mp hp
  omega

/-- On success, `addjobGo` placed the new entry in the table. -/
theorem addjobGo_mem (t : List job_t) (pid jid st : Nat) (cmd : String)
    (h : (addjobGo pid jid st cmd t).2 = true) :
    ({ pid := pid, jid := jid, state := st, cmdline := cmd } : job_t) ∈
      (addjobGo pid jid st cmd t).1 := by
  induction t with
  | nil => simp [addjobGo] at h
  | cons e r ih =>
      by_cases he : e.pid = 0
      · simp [addjobGo, he]
      · simp only [addjobGo, if_neg he] at h ⊢
        exact List.mem_cons_of_mem e (ih h)

/-- C6.  Starting from the empty table, after any sequence of add/remove
operations, every successful `addjob` assigns as jid the smallest integer
in `[1, MAXJOBS]` not currently used by an active job: the new entry
carries `freejid` of the table, which is in range, unused, and such that
every smaller jid in the range is in use. -/
theorem c6_add_assigns_smallest_free_jid (ops : List TableOp) (pid st : Nat)
    (cmd : String) (h : (addjob (applyOps ops) pid st cmd).2.1 = true) :
    (∃ e ∈ (addjob (applyOps ops) pid st cmd).1,
        e.pid = pid ∧ e.jid = freejid (applyOps ops)) ∧
    1 ≤ freejid (applyOps ops) ∧ freejid (applyOps ops) ≤ MAXJOBS ∧
    ¬ activeUses (applyOps ops) (freejid (applyOps ops)) ∧
    ∀ j, 1 ≤ j → j < freejid (applyOps ops) → activeUses (applyOps ops) j := by
  set t := applyOps ops with ht
  have hwf : wfTable t := wfTable_applyOps ops
  have hp : ¬ pid < 1 := by
    intro hp
    rw [addjob, if_pos hp] at h
    simp at h
  have hf : freejid t ≠ 0 := by
    intro hf
    rw [addjob, if_neg hp] at h
    simp only [hf, if_pos rfl] at h
    simp at h
  obtain ⟨h1, h2, h3, h4⟩ := freejid_spec t hf
  have hgo : (addjob t pid st cmd).1 = (addjobGo pid (freejid t) st cmd t).1 ∧
      (addjob t pid st cmd).2.1 = (addjobGo pid (freejid t) st cmd t).2 := by
    rw [addjob, if_neg hp]
    simp [hf]
  refine ⟨?_, h1, h2, not_activeUses_of_not_taken t _ h3,
    fun j hj1 hj2 => activeUses_of_taken t j hwf (by omega) (h4 j hj1 hj2)⟩
  refine ⟨{ pid := pid, jid := freejid t, state := st, cmdline := cmd }, ?_, rfl, rfl⟩
  rw [hgo.1]
  exact addjobGo_mem t pid (freejid t) st cmd (by rw [← hgo.2]; exact h)

/-- Witness for C6: after adding pids 21 and 22 and removing 21, a new add
gets jid 1 back (the smallest unused), exercising every conjunct. -/
theorem c6_witness :
    (∃ e ∈ (addjob (applyOps [TableOp.add 21 BG "a", TableOp.add 22 BG "b",
        TableOp.remove 21]) 23 BG "c").1,
      e.pid = 23 ∧ e.jid = freejid (applyOps [TableOp.add 21 BG "a",
        TableOp.add 22 BG "b", TableOp.remove 21])) ∧
    1 ≤ freejid (applyOps [TableOp.add 21 BG "a", TableOp.add 22 BG "b",
        TableOp.remove 21]) := by
  have h := c6_add_assigns_smallest_free_jid
    [TableOp.add 21 BG "a", TableOp.add 22 BG "b", TableOp.remove 21]
    23 BG "c" (by decide)
  exact ⟨h.1, h.2.1⟩

/-! ## Whole-shell small-step model

The shell is a single thread interleaved with asynchronous signal
delivery.  The model below makes the ordering of `eval`'s spawn path
explicit: `spawnA` is `sigprocmask(SIG_BLOCK, SIGCHLD)`, `child_finished
= 0` and a successful `fork` (the OS hands out a pid not used by any
previous child); `spawnB` is the parent's `addjob` followed, on success,
by `sigprocmask(SIG_UNBLOCK, ...)` (on failure `eval` returns without
unblocking, exactly as in the code).  Nothing can run between `addjob`
and the unblock anyway, since `SIGCHLD` is blocked there, so fusing them
into one step loses no interleaving.  `childStop`/`childTerm` are
environment events: a live child stops or terminates, making a status
change available to `waitpid`.  `sigchld` delivers `SIGCHLD` and runs
`sigchld_handler`; it is deliverable when the shell has `SIGCHLD`
unblocked, and also while the shell sits inside `waitfg`'s
`sigsuspend(&myset)` with `myset` empty, which temporarily replaces the
signal mask by the empty set (this is how a pending `SIGCHLD` gets in
even after a failed-add return left `SIGCHLD` blocked).  `waitfgCheck` is
one iteration of the `waitfg` loop reaching the `child_finished` test;
`cmdFg`/`cmdBg` are the builtin commands with a `%`-prefixed argument.
`spawnFail` is a failed `fork`: the code reports and returns with
`SIGCHLD` still blocked and no child created.  OS calls other than `fork`
and `execvp` are assumed to succeed.  A `crashed` shell (null-pointer
dereference in the handler) takes no further steps. -/

/-- One child process ever forked by the shell: whether its registration
(`addjob`) succeeded, whether it is still alive, and whether it is
currently stopped. -/
structure Child where
  pid : Nat
  tracked : Bool
  alive : Bool
  stopped : Bool
deriving DecidableEq, Repr

/-- Where the main loop is inside the spawn path. -/
inductive Phase
  | idle
  | forked (pid : Nat) (bg : Bool) (cmd : String)
deriving DecidableEq, Repr

/-- Whether the main loop is at the prompt or inside `waitfg`. -/
inductive Mode
  | atPrompt
  | waiting (pid : Nat)
deriving DecidableEq, Repr

/-- The whole shell state. -/
structure Shell where
  jobs : List job_t
  blocked : Bool
  cf : Bool
  children : List Child
  queue : List (Nat × WRes)
  phase : Phase
  mode : Mode
  out : List String
  crashed : Bool
deriving DecidableEq, Repr

/-- The initial shell state: cleared table, `SIGCHLD` unblocked,
`child_finished = 0`, no children, at the prompt. -/
def initShell : Shell :=
  { jobs := initjobs, blocked := false, cf := false, children := [],
    queue := [], phase := Phase.idle, mode := Mode.atPrompt, out := [],
    crashed := false }

/-- Events of the interleaving. -/
inductive Ev
  | spawnA (pid : Nat) (bg : Bool) (cmd : String)
  | spawnB
  | spawnFail
  | childStop (pid sig : Nat)
  | childTerm (pid sig : Nat)
  | sigchld
  | waitfgCheck
  | cmdFg (arg : List Char)
  | cmdBg (arg : List Char)
deriving DecidableEq, Repr

/-- Whether some child record carries this pid. -/
def hasChildPid (cs : List Child) (p : Nat) : Bool :=
  cs.any (fun c => c.pid == p)

/-- Whether some child with this pid satisfies the predicate. -/
def childIs (cs : List Child) (p : Nat) (f : Child → Bool) : Bool :=
  cs.any (fun c => c.pid == p && f c)

/-- Mark the child with this pid as registered. -/
def setTracked (cs : List Child) (p : Nat) : List Child :=
  cs.map (fun c => if c.pid = p then { c with tracked := true } else c)

/-- Set the stopped flag of the child with this pid. -/
def setStoppedChild (cs : List Child) (p : Nat) (b : Bool) : List Child :=
  cs.map (fun c => if c.pid = p then { c with stopped := b } else c)

/-- Mark the child with this pid as terminated. -/
def setDead (cs : List Child) (p : Nat) : List Child :=
  cs.map (fun c => if c.pid = p then { c with alive := false } else c)

/-- Effect of the `kill(-pid, SIGCONT)` calls of `do_bgfg` on the children:
a stopped child of the targeted group resumes. -/
def applyCont (cs : List Child) (ks : List KillCall) : List Child :=
  ks.foldl
    (fun acc k =>
      acc.map (fun c =>
        if (c.pid : Int) = -k.target then { c with stopped := false } else c))
    cs

/-- Whether a `SIGCHLD` delivery can run the handler: the signal is
unblocked, or the shell sits in `waitfg`'s `sigsuspend` (inside `waitfg`,
before `child_finished` is seen true) whose empty mask unblocks everything
for the duration of the call. -/
def chldDeliverable (s : Shell) : Bool :=
  !s.blocked ||
    (match s.mode with
     | Mode.waiting _ => !s.cf
     | Mode.atPrompt => false)

/-- `waitfg`'s confirmation reap `waitpid(pid, NULL, WNOHANG)`: consume the
pending termination status of this specific pid, if any (without
`WUNTRACED` it cannot consume a stop status), and change nothing else. -/
def reapTermOf (p : Nat) : List (Nat × WRes) → List (Nat × WRes)
  | [] => []
  | (q, w) :: rest =>
      if q == p && isTerm w then rest
      else (q, w) :: reapTermOf p rest

/-- The announcement `[jid] (pid) cmdline` printed after a background
launch (computed on the table that already contains the job). -/
def bgLaunchMsg (jobs : List job_t) (p : Nat) (cmd : String) : String :=
  "[" ++ toString (pid2jid jobs p) ++ "] (" ++ toString p ++ ") " ++ cmd

/-- One step of the shell interleaving. -/
def step (s : Shell) (e : Ev) : Shell :=
  if s.crashed then s
  else
    match e with
    | Ev.spawnA p bg cmd =>
        if s.phase = Phase.idle ∧ s.mode = Mode.atPrompt ∧ 1 ≤ p ∧
            hasChildPid s.children p = false then
          { s with blocked := true, cf := false,
                   children := s.children ++
                     [{ pid := p, tracked := false, alive := true,
                        stopped := false }],
                   phase := Phase.forked p bg cmd }
        else s
    | Ev.spawnB =>
        match s.phase with
        | Phase.idle => s
        | Phase.forked p bg cmd =>
            if (addjob s.jobs p (if bg then BG else FG) cmd).2.1 then
              { s with jobs := (addjob s.jobs p (if bg then BG else FG) cmd).1,
                       blocked := false,
                       children := setTracked s.children p,
                       phase := Phase.idle,
                       mode := if bg then Mode.atPrompt else Mode.waiting p,
                       out := s.out ++
                         (addjob s.jobs p (if bg then BG else FG) cmd).2.2 ++
                         (if bg then
                           [bgLaunchMsg
                             (addjob s.jobs p (if bg then BG else FG) cmd).1
                             p cmd]
                          else []) }
            else
              { s with phase := Phase.idle,
                       out := s.out ++
                         (addjob s.jobs p (if bg then BG else FG) cmd).2.2 ++
                         ["Failed to add job"] }
    | Ev.spawnFail =>
        if s.phase = Phase.idle ∧ s.mode = Mode.atPrompt then
          { s with blocked := true, cf := false,
                   out := s.out ++ ["fork error"] }
        else s
    | Ev.childStop p sg =>
        if childIs s.children p (fun c => c.alive && !c.stopped) then
          { s with children := setStoppedChild s.children p true,
                   queue := s.queue ++ [(p, WRes.stopped sg)] }
        else s
    | Ev.childTerm p sg =>
        if childIs s.children p (fun c => c.alive) then
          { s with children := setDead s.children p,
                   queue := s.queue ++
                     [(p, if sg = 0 then WRes.exited 0 else WRes.signaled sg)] }
        else s
    | Ev.sigchld =>
        if chldDeliverable s then
          { s with jobs := (sigchld_loop s.jobs s.cf s.queue).table,
                   queue := (sigchld_loop s.jobs s.cf s.queue).queue,
                   cf := (sigchld_loop s.jobs s.cf s.queue).cf,
                   out := s.out ++ (sigchld_loop s.jobs s.cf s.queue).out,
                   crashed := (sigchld_loop s.jobs s.cf s.queue).crashed }
        else s
    | Ev.waitfgCheck =>
        match s.mode with
        | Mode.atPrompt => s
        | Mode.waiting p =>
            if s.cf then
              { s with queue := reapTermOf p s.queue, mode := Mode.atPrompt }
            else s
    | Ev.cmdFg a =>
        if s.phase = Phase.idle ∧ s.mode = Mode.atPrompt then
          { s with jobs := (do_bgfg s.jobs ("fg".toList) (some ('%' :: a))).table,
                   out := s.out ++
                     (do_bgfg s.jobs ("fg".toList) (some ('%' :: a))).out,
                   children := applyCont s.children
                     (do_bgfg s.jobs ("fg".toList) (some ('%' :: a))).kills,
                   mode := match (do_bgfg s.jobs ("fg".toList)
                       (some ('%' :: a))).waited with
                     | some p => Mode.waiting p
                     | none => s.mode }
        else s
    | Ev.cmdBg a =>
        if s.phase = Phase.idle ∧ s.mode = Mode.atPrompt then
          { s with jobs := (do_bgfg s.jobs ("bg".toList) (some ('%' :: a))).table,
                   out := s.out ++
                     (do_bgfg s.jobs ("bg".toList) (some ('%' :: a))).out,
                   children := applyCont s.children
                     (do_bgfg s.jobs ("bg".toList) (some ('%' :: a))).kills }
        else s

/-- Run the shell model over a sequence of events. -/
def runShell (s : Shell) (evs : List Ev) : Shell :=
  evs.foldl step s

/-! ## C3 and C7: the stale `child_finished` flag -/

/-- A run that stops a foreground job with the keyboard stop signal and
then resumes it with `fg %1`: spawn pid 10 in the foreground, the child
stops (signal 20), the handler runs (marking the job `Stopped` and setting
`child_finished`), the waiter returns, then `fg %1` is issued and the
waiter is entered once more.  `child_finished` is reset only in `eval`'s
fork path (line `child_finished = 0;`), never by `do_bgfg`, so the second
`waitfg` sees the stale flag. -/
def c3trace : List Ev :=
  [Ev.spawnA 10 false "sleep 10", Ev.spawnB, Ev.childStop 10 20, Ev.sigchld,
   Ev.waitfgCheck, Ev.cmdFg ['1'], Ev.waitfgCheck]

/-- C3 (code_bug).  `fg %1` on the stopped job sends the process-group
continue and sets the state to Foreground (first two conjuncts), but the
shell then returns to the read loop immediately: after `cmdFg` the shell is
waiting with `child_finished` still set from the earlier stop, and the very
next `waitfg` iteration — with no intervening child-status handler run, so
no new status change recorded for the job — exits back to the prompt while
the job is still in state Foreground.  This contradicts the claim that
control does not return to the read loop until the handler records a new
status change for the job (and contradicts `waitfg`'s own comment, "Block
until process pid is no longer the foreground process"). -/
theorem c3_fg_returns_without_new_status :
    (do_bgfg (runShell initShell (c3trace.take 5)).jobs "fg".toList
        (some ('%' :: ['1']))).kills =
      [{ target := (-10 : Int), signal := SIGCONT }] ∧
    (runShell initShell (c3trace.take 6)).mode = Mode.waiting 10 ∧
    (runShell initShell (c3trace.take 6)).cf = true ∧
    getjobjid (runShell initShell (c3trace.take 6)).jobs 1 =
      some { pid := 10, jid := 1, state := FG, cmdline := "sleep 10" } ∧
    (runShell initShell c3trace).mode = Mode.atPrompt ∧
    getjobjid (runShell initShell c3trace).jobs 1 =
      some { pid := 10, jid := 1, state := FG, cmdline := "sleep 10" } := by
  refine ⟨by decide, by decide, by decide, by decide, by decide, by decide⟩

/-- A run reaching two simultaneous Foreground jobs: two foreground spawns
are each stopped by the keyboard stop signal; then `fg %1` and `fg %2` are
issued.  Each `fg` resumes its job and sets it Foreground, and each
`waitfg` returns immediately on the stale `child_finished` flag, so after
the second `fg` both jobs sit in state Foreground at the prompt. -/
def c7trace : List Ev :=
  [Ev.spawnA 10 false "a", Ev.spawnB, Ev.childStop 10 20, Ev.sigchld,
   Ev.waitfgCheck,
   Ev.spawnA 11 false "b", Ev.spawnB, Ev.childStop 11 20, Ev.sigchld,
   Ev.waitfgCheck,
   Ev.cmdFg ['1'], Ev.waitfgCheck, Ev.cmdFg ['2'], Ev.waitfgCheck]

/-- C7 (code_bug).  At the end of `c7trace` the shell is at the prompt — an
observable point between commands — and the job table holds two entries in
state Foreground (pids 10 and 11), contradicting the claim (and the code's
own comment, "At most 1 job can be in the FG state"). -/
theorem c7_two_foreground_jobs :
    ((runShell initShell c7trace).jobs.filter
        (fun e => e.state == FG)).length = 2 ∧
    (runShell initShell c7trace).mode = Mode.atPrompt ∧
    (runShell initShell c7trace).crashed = false := by
  refine ⟨by decide, by decide, by decide⟩

/-! ## C10: the unguarded dereference in the stopped branch -/

/-- Sixteen successful background spawns, filling the job table. -/
def fill16 : List Ev :=
  ((List.range' 1 MAXJOBS).map
    (fun i => [Ev.spawnA (100 + i) true "c", Ev.spawnB])).flatten

/-- A run reaching the handler's stopped branch with a pid that has no
table entry: with the table full, a seventeenth spawn forks pid 117 but
`addjob` fails, so the child runs untracked and `eval` returns with
`SIGCHLD` still blocked; the untracked child stops (a program may stop
itself); then `fg %1` puts the shell into `waitfg`, whose
`sigsuspend(&myset)` with the empty mask lets the pending `SIGCHLD` in. -/
def c10pre : List Ev :=
  fill16 ++ [Ev.spawnA 117 true "d", Ev.spawnB, Ev.childStop 117 19,
             Ev.cmdFg ['1']]

/-- C10 (counterexample).  At the end of `c10pre` the handler is about to
reap a stopped child (pid 117) whose pid has no matching entry in the job
table, and delivering `SIGCHLD` makes the stopped branch dereference the
null result of `getjobpid`: the claim that the dereference is always safe
fails on this reachable execution. -/
theorem c10_counterexample_null_deref :
    (runShell initShell c10pre).queue = [(117, WRes.stopped 19)] ∧
    getjobpid (runShell initShell c10pre).jobs 117 = none ∧
    chldDeliverable (runShell initShell c10pre) = true ∧
    (runShell initShell (c10pre ++ [Ev.sigchld])).crashed = true := by
  refine ⟨by decide, by decide, by decide, by decide⟩

/-! ## Helper lemmas for the shell invariants -/

theorem updateStatePid_map_pid (t : List job_t) (p st : Nat) :
    (updateStatePid t p st).map job_t.pid = t.map job_t.pid := by
  induction t with
  | nil => rfl
  | cons e r ih =>
      unfold updateStatePid
      by_cases he : e.pid = p <;> simp [he, ih]

theorem updateStateJid_map_pid (t : List job_t) (j st : Nat) :
    (updateStateJid t j st).map job_t.pid = t.map job_t.pid := by
  induction t with
  | nil => rfl
  | cons e r ih =>
      unfold updateStateJid
      by_cases he : e.jid = j <;> simp [he, ih]

/-- No two distinct slots of the table hold the same nonzero pid. -/
def pidsOK (t : List job_t) : Prop :=
  (t.map job_t.pid).Pairwise (fun a b => a ≠ 0 → a ≠ b)

theorem deletejobGo_pid_mem (t : List job_t) (p : Nat) :
    ∀ x ∈ (deletejobGo p t).1.map job_t.pid, x = 0 ∨ x ∈ t.map job_t.pid := by
  induction t with
  | nil => simp [deletejobGo]
  | cons e r ih =>
      intro x hx
      by_cases he : e.pid = p
      · simp only [deletejobGo, if_pos he, List.map_cons, List.mem_cons] at hx
        rcases hx with hx | hx
        · exact Or.inl (by simpa [clearjob] using hx)
        · exact Or.inr (by simp [hx])
      · simp only [deletejobGo, if_neg he, List.map_cons, List.mem_cons] at hx
        rcases hx with hx | hx
        · exact Or.inr (by simp [hx])
        · rcases ih x hx with h0 | hm
          · exact Or.inl h0
          · exact Or.inr (by simp [hm])

theorem pidsOK_deletejobGo (t : List job_t) (p : Nat) (h : pidsOK t) :
    pidsOK (deletejobGo p t).1 := by
  induction t with
  | nil => simpa [deletejobGo] using h
  | cons e r ih =>
      rw [pidsOK, List.map_cons, List.pairwise_cons] at h
      by_cases he : e.pid = p
      · rw [pidsOK]
        simp only [deletejobGo, if_pos he, List.map_cons]
        rw [List.pairwise_cons]
        exact ⟨fun b _ hb => ((by simp [clearjob] at hb) : False).elim, h.2⟩
      · rw [pidsOK]
        simp only [deletejobGo, if_neg he, List.map_cons]
        rw [List.pairwise_cons]
        refine ⟨fun b hb hne => ?_, ih h.2⟩
        rcases deletejobGo_pid_mem r p b hb with h0 | hm
        · omega
        · exact h.1 b hm hne

theorem deletejobGo_no_pid (t : List job_t) (p : Nat) (h : pidsOK t)
    (hp : p ≠ 0) : ∀ x ∈ (deletejobGo p t).1.map job_t.pid, x ≠ p := by
  induction t with
  | nil => simp [deletejobGo]
  | cons e r ih =>
      rw [pidsOK, List.map_cons, List.pairwise_cons] at h
      intro x hx
      by_cases he : e.pid = p
      · simp only [deletejobGo, if_pos he, List.map_cons, List.mem_cons] at hx
        rcases hx with hx | hx
        · simp [clearjob] at hx
          omega
        · have := h.1 x hx (by omega)
          omega
      · simp only [deletejobGo, if_neg he, List.map_cons, List.mem_cons] at hx
        rcases hx with hx | hx
        · omega
        · exact ih h.2 x hx

theorem deletejob_no_pid (t : List job_t) (p : Nat) (h : pidsOK t)
    (hp : p ≠ 0) : ∀ x ∈ (deletejob t p).1.map job_t.pid, x ≠ p := by
  unfold deletejob
  have : ¬ p < 1 := by omega
  simpa [this] using deletejobGo_no_pid t p h hp

theorem pidsOK_deletejob (t : List job_t) (p : Nat) (h : pidsOK t) :
    pidsOK (deletejob t p).1 := by
  unfold deletejob
  by_cases hp : p < 1
  · simpa [hp]
  · simpa [hp] using pidsOK_deletejobGo t p h

theorem deletejob_pid_mem (t : List job_t) (p : Nat) :
    ∀ x ∈ (deletejob t p).1.map job_t.pid, x = 0 ∨ x ∈ t.map job_t.pid := by
  unfold deletejob
  by_cases hp : p < 1
  · simp only [if_pos hp]
    exact fun x hx => Or.inr hx
  · simpa [hp] using deletejobGo_pid_mem t p

theorem addjobGo_pid_mem (t : List job_t) (pid jid st : Nat) (cmd : String) :
    ∀ x ∈ (addjobGo pid jid st cmd t).1.map job_t.pid,
      x = pid ∨ x ∈ t.map job_t.pid := by
  induction t with
  | nil => simp [addjobGo]
  | cons e r ih =>
      intro x hx
      by_cases he : e.pid = 0
      · simp only [addjobGo, if_pos he, List.map_cons, List.mem_cons] at hx
        rcases hx with hx | hx
        · exact Or.inl hx
        · exact Or.inr (by simp [hx])
      · simp only [addjobGo, if_neg he, List.map_cons, List.mem_cons] at hx
        rcases hx with hx | hx
        · exact Or.inr (by simp [hx])
        · rcases ih x hx with h0 | hm
          · exact Or.inl h0
          · exact Or.inr (by simp [hm])

theorem pidsOK_addjobGo (t : List job_t) (pid jid st : Nat) (cmd : String)
    (h : pidsOK t) (_hp : pid ≠ 0)
    (hfresh : ∀ x ∈ t.map job_t.pid, x ≠ 0 → x ≠ pid) :
    pidsOK (addjobGo pid jid st cmd t).1 := by
  induction t with
  | nil => simpa [addjobGo] using h
  | cons e r ih =>
      rw [pidsOK, List.map_cons, List.pairwise_cons] at h
      by_cases he : e.pid = 0
      · rw [pidsOK]
        simp only [addjobGo, if_pos he, List.map_cons]
        rw [List.pairwise_cons]
        refine ⟨fun b hb hne => ?_, h.2⟩
        by_cases hb0 : b = 0
        · omega
        · have := hfresh b (by simp [hb]) hb0
          omega
      · rw [pidsOK]
        simp only [addjobGo, if_neg he, List.map_cons]
        rw [List.pairwise_cons]
        refine ⟨fun b hb hne => ?_, ih h.2 fun x hx hx0 => hfresh x (by simp [hx]) hx0⟩
        rcases addjobGo_pid_mem r pid jid st cmd b hb with h0 | hm
        · have := hfresh e.pid (by simp) hne
          omega
        · exact h.1 b hm hne

theorem sigchld_loop_signaled_eq (jobs : List job_t) (cf : Bool) (p sg : Nat)
    (rest : List (Nat × WRes)) :
    sigchld_loop jobs cf ((p, WRes.signaled sg) :: rest) =
      { sigchld_loop (deletejob jobs p).1 true rest with
          out := termMsg jobs p sg ::
            (sigchld_loop (deletejob jobs p).1 true rest).out } := rfl

theorem sigchld_loop_exited_eq (jobs : List job_t) (cf : Bool) (p c : Nat)
    (rest : List (Nat × WRes)) :
    sigchld_loop jobs cf ((p, WRes.exited c) :: rest) =
      sigchld_loop (deletejob jobs p).1 true rest := rfl

theorem sigchld_loop_stopped_none (jobs : List job_t) (cf : Bool) (p sg : Nat)
    (rest : List (Nat × WRes)) (hg : getjobpid jobs p = none) :
    sigchld_loop jobs cf ((p, WRes.stopped sg) :: rest) =
      { table := jobs, queue := rest, out := [], cf := cf,
        crashed := true, early := false } := by
  unfold sigchld_loop
  rw [hg]

theorem sigchld_loop_stopped_some (jobs : List job_t) (cf : Bool) (p sg : Nat)
    (rest : List (Nat × WRes)) (j : job_t) (hg : getjobpid jobs p = some j) :
    sigchld_loop jobs cf ((p, WRes.stopped sg) :: rest) =
      { table := updateStatePid jobs p ST', queue := rest,
        out := [stopMsg jobs p sg], cf := true,
        crashed := false, early := true } := by
  unfold sigchld_loop
  rw [hg]

theorem sigchld_loop_queue_sublist (q : List (Nat × WRes)) :
    ∀ (jobs : List job_t) (cf : Bool),
      (sigchld_loop jobs cf q).queue.Sublist q := by
  induction q with
  | nil => intro jobs cf; simp [sigchld_loop]
  | cons pw rest ih =>
      intro jobs cf
      obtain ⟨p, w⟩ := pw
      cases w with
      | stopped sg =>
          cases hg : getjobpid jobs p with
          | none =>
              rw [sigchld_loop_stopped_none jobs cf p sg rest hg]
              exact List.sublist_cons_self _ _
          | some j =>
              rw [sigchld_loop_stopped_some jobs cf p sg rest j hg]
              exact List.sublist_cons_self _ _
      | signaled sg =>
          rw [sigchld_loop_signaled_eq]
          exact (ih (deletejob jobs p).1 true).trans (List.sublist_cons_self _ _)
      | exited c =>
          rw [sigchld_loop_exited_eq]
          exact (ih (deletejob jobs p).1 true).trans (List.sublist_cons_self _ _)

theorem sigchld_loop_table_pid (q : List (Nat × WRes)) :
    ∀ (jobs : List job_t) (cf : Bool),
      ∀ x ∈ (sigchld_loop jobs cf q).table.map job_t.pid,
        x = 0 ∨ x ∈ jobs.map job_t.pid := by
  induction q with
  | nil => intro jobs cf x hx; exact Or.inr hx
  | cons pw rest ih =>
      intro jobs cf x hx
      obtain ⟨p, w⟩ := pw
      cases w with
      | stopped sg =>
          cases hg : getjobpid jobs p with
          | none =>
              rw [sigchld_loop_stopped_none jobs cf p sg rest hg] at hx
              exact Or.inr hx
          | some j =>
              rw [sigchld_loop_stopped_some jobs cf p sg rest j hg] at hx
              simp only at hx
              rw [updateStatePid_map_pid] at hx
              exact Or.inr hx
      | signaled sg =>
          rw [sigchld_loop_signaled_eq] at hx
          simp only at hx
          rcases ih (deletejob jobs p).1 true x hx with h0 | hm
          · exact Or.inl h0
          · exact deletejob_pid_mem jobs p x hm
      | exited c =>
          rw [sigchld_loop_exited_eq] at hx
          rcases ih (deletejob jobs p).1 true x hx with h0 | hm
          · exact Or.inl h0
          · exact deletejob_pid_mem jobs p x hm

theorem pidsOK_sigchld_loop (q : List (Nat × WRes)) :
    ∀ (jobs : List job_t) (cf : Bool), pidsOK jobs →
      pidsOK (sigchld_loop jobs cf q).table := by
  induction q with
  | nil => intro jobs cf h; exact h
  | cons pw rest ih =>
      intro jobs cf h
      obtain ⟨p, w⟩ := pw
      cases w with
      | stopped sg =>
          cases hg : getjobpid jobs p with
          | none =>
              rw [sigchld_loop_stopped_none jobs cf p sg rest hg]
              exact h
          | some j =>
              rw [sigchld_loop_stopped_some jobs cf p sg rest j hg]
              show pidsOK (updateStatePid jobs p ST')
              rw [pidsOK, updateStatePid_map_pid]
              exact h
      | signaled sg =>
          rw [sigchld_loop_signaled_eq]
          exact ih (deletejob jobs p).1 true (pidsOK_deletejob jobs p h)
      | exited c =>
          rw [sigchld_loop_exited_eq]
          exact ih (deletejob jobs p).1 true (pidsOK_deletejob jobs p h)

/-- Whether this status change is a termination of pid `p`. -/
def termLast (a b : Nat × WRes) : Prop := a.1 = b.1 → isTerm a.2 = false

/-- Core removal property of one handler invocation: if the pending status
list has at most one termination per pid, with no later status for a pid
that terminated (`Pairwise termLast`, which holds of every reachable
queue), the table has no duplicate nonzero pids, and queue pids are
nonzero, then any termination the loop consumed has left the table with no
entry for that pid. -/
theorem sigchld_loop_term_removed (q : List (Nat × WRes)) :
    ∀ (jobs : List job_t) (cf : Bool) (p : Nat) (w : WRes),
      q.Pairwise termLast → pidsOK jobs → (∀ pw ∈ q, pw.1 ≠ 0) →
      isTerm w = true → (p, w) ∈ q →
      (p, w) ∉ (sigchld_loop jobs cf q).queue →
      ∀ x ∈ (sigchld_loop jobs cf q).table.map job_t.pid, x ≠ p := by
  induction q with
  | nil => intro jobs cf p w _ _ _ _ hmem _; exact absurd hmem (by simp)
  | cons pw rest ih =>
      intro jobs cf p w hpair hpok hpos hterm hmem hnot
      obtain ⟨p1, w1⟩ := pw
      rw [List.pairwise_cons] at hpair
      cases w1 with
      | stopped sg =>
          have hq : (sigchld_loop jobs cf ((p1, WRes.stopped sg) :: rest)).queue
              = rest := by
            cases hg : getjobpid jobs p1 with
            | none => rw [sigchld_loop_stopped_none jobs cf p1 sg rest hg]
            | some j => rw [sigchld_loop_stopped_some jobs cf p1 sg rest j hg]
          rw [hq] at hnot
          rcases List.mem_cons.mp hmem with hh | hh
          · exfalso
            have hw : w = WRes.stopped sg := ((Prod.mk.injEq _ _ _ _).mp hh).2
            rw [hw] at hterm
            simp [isTerm] at hterm
          · exact absurd hh hnot
      | signaled sg =>
          rw [sigchld_loop_signaled_eq] at hnot ⊢
          simp only at hnot ⊢
          rcases List.mem_cons.mp hmem with hh | hh
          · have hp1 : p1 = p := (Prod.mk.injEq _ _ _ _).mp hh.symm |>.1
            have hp0 : p ≠ 0 := hp1 ▸ hpos (p1, WRes.signaled sg) (by simp)
            intro x hx
            rcases sigchld_loop_table_pid rest (deletejob jobs p1).1 true x hx
              with h0 | hm
            · omega
            · exact hp1 ▸ deletejob_no_pid jobs p1 hpok (by omega) x hm
          · exact ih (deletejob jobs p1).1 true p w hpair.2
              (pidsOK_deletejob jobs p1 hpok)
              (fun pw hpw => hpos pw (List.mem_cons_of_mem _ hpw))
              hterm hh hnot
      | exited c =>
          rw [sigchld_loop_exited_eq] at hnot ⊢
          rcases List.mem_cons.mp hmem with hh | hh
          · have hp1 : p1 = p := (Prod.mk.injEq _ _ _ _).mp hh.symm |>.1
            have hp0 : p ≠ 0 := hp1 ▸ hpos (p1, WRes.exited c) (by simp)
            intro x hx
            rcases sigchld_loop_table_pid rest (deletejob jobs p1).1 true x hx
              with h0 | hm
            · omega
            · exact hp1 ▸ deletejob_no_pid jobs p1 hpok (by omega) x hm
          · exact ih (deletejob jobs p1).1 true p w hpair.2
              (pidsOK_deletejob jobs p1 hpok)
              (fun pw hpw => hpos pw (List.mem_cons_of_mem _ hpw))
              hterm hh hnot

/-! ## Children bookkeeping lemmas -/

/-- A child transformation that keeps pid and registration and never
resurrects a dead child. -/
def childMapOK (f : Child → Child) : Prop :=
  ∀ c, (f c).pid = c.pid ∧ (f c).tracked = c.tracked ∧
    ((f c).alive = true → c.alive = true)

theorem childMapOK_setStopped (p : Nat) (b : Bool) :
    childMapOK (fun c => if c.pid = p then { c with stopped := b } else c) := by
  intro c
  by_cases h : c.pid = p <;> simp [h]

theorem childMapOK_setDead (p : Nat) :
    childMapOK (fun c => if c.pid = p then { c with alive := false } else c) := by
  intro c
  by_cases h : c.pid = p <;> simp [h]

theorem childMapOK_cont (k : KillCall) :
    childMapOK (fun c =>
      if (c.pid : Int) = -k.target then { c with stopped := false } else c) := by
  intro c
  by_cases h : (c.pid : Int) = -k.target <;> simp [h]

theorem childMap_map_pid (cs : List Child) (f : Child → Child)
    (hf : childMapOK f) : (cs.map f).map Child.pid = cs.map Child.pid := by
  rw [List.map_map]
  exact List.map_congr_left (fun c _ => (hf c).1)

theorem childMap_exists_tracked (cs : List Child) (f : Child → Child)
    (hf : childMapOK f) (x : Nat)
    (h : ∃ c ∈ cs, c.pid = x ∧ c.tracked = true) :
    ∃ c ∈ cs.map f, c.pid = x ∧ c.tracked = true := by
  obtain ⟨c, hc, h1, h2⟩ := h
  exact ⟨f c, List.mem_map_of_mem f hc,
    by rw [(hf c).1]; exact h1, by rw [(hf c).2.1]; exact h2⟩

theorem childMap_forall_untracked (cs : List Child) (f : Child → Child)
    (hf : childMapOK f) (x : Nat)
    (h : ∀ c ∈ cs, c.pid = x → c.tracked = false) :
    ∀ c ∈ cs.map f, c.pid = x → c.tracked = false := by
  intro c' hc' hx
  obtain ⟨c, hc, rfl⟩ := List.mem_map.mp hc'
  rw [(hf c).2.1]
  exact h c hc (by rw [← (hf c).1]; exact hx)

theorem childMap_forall_dead (cs : List Child) (f : Child → Child)
    (hf : childMapOK f) (x : Nat)
    (h : ∀ c ∈ cs, c.pid = x → c.alive = false) :
    ∀ c ∈ cs.map f, c.pid = x → c.alive = false := by
  intro c' hc' hx
  obtain ⟨c, hc, rfl⟩ := List.mem_map.mp hc'
  have hca : c.alive = false := h c hc (by rw [← (hf c).1]; exact hx)
  by_cases hfa : (f c).alive = true
  · rw [(hf c).2.2 hfa] at hca
    exact absurd hca (by simp)
  · simpa using hfa

theorem applyCont_map_pid (ks : List KillCall) :
    ∀ cs : List Child, (applyCont cs ks).map Child.pid = cs.map Child.pid := by
  induction ks with
  | nil => intro cs; rfl
  | cons k rest ih =>
      intro cs
      show (applyCont (cs.map _) rest).map Child.pid = _
      rw [ih, childMap_map_pid cs _ (childMapOK_cont k)]

theorem applyCont_exists_tracked (ks : List KillCall) :
    ∀ (cs : List Child) (x : Nat),
      (∃ c ∈ cs, c.pid = x ∧ c.tracked = true) →
      ∃ c ∈ applyCont cs ks, c.pid = x ∧ c.tracked = true := by
  induction ks with
  | nil => intro cs x h; exact h
  | cons k rest ih =>
      intro cs x h
      exact ih _ x (childMap_exists_tracked cs _ (childMapOK_cont k) x h)

theorem applyCont_forall_untracked (ks : List KillCall) :
    ∀ (cs : List Child) (x : Nat),
      (∀ c ∈ cs, c.pid = x → c.tracked = false) →
      ∀ c ∈ applyCont cs ks, c.pid = x → c.tracked = false := by
  induction ks with
  | nil => intro cs x h; exact h
  | cons k rest ih =>
      intro cs x h
      exact ih _ x (childMap_forall_untracked cs _ (childMapOK_cont k) x h)

theorem applyCont_forall_dead (ks : List KillCall) :
    ∀ (cs : List Child) (x : Nat),
      (∀ c ∈ cs, c.pid = x → c.alive = false) →
      ∀ c ∈ applyCont cs ks, c.pid = x → c.alive = false := by
  induction ks with
  | nil => intro cs x h; exact h
  | cons k rest ih =>
      intro cs x h
      exact ih _ x (childMap_forall_dead cs _ (childMapOK_cont k) x h)

theorem setTracked_map_pid (cs : List Child) (p : Nat) :
    (setTracked cs p).map Child.pid = cs.map Child.pid := by
  unfold setTracked
  rw [List.map_map]
  refine List.map_congr_left (fun c _ => ?_)
  by_cases h : c.pid = p <;> simp [h]

theorem setTracked_exists (cs : List Child) (p : Nat)
    (h : p ∈ cs.map Child.pid) :
    ∃ c ∈ setTracked cs p, c.pid = p ∧ c.tracked = true := by
  obtain ⟨c, hc, rfl⟩ := List.mem_map.mp h
  refine ⟨{ c with tracked := true }, ?_, rfl, rfl⟩
  unfold setTracked
  exact List.mem_map.mpr ⟨c, hc, by simp⟩

theorem setTracked_exists_tracked (cs : List Child) (p x : Nat)
    (h : ∃ c ∈ cs, c.pid = x ∧ c.tracked = true) :
    ∃ c ∈ setTracked cs p, c.pid = x ∧ c.tracked = true := by
  obtain ⟨c, hc, h1, h2⟩ := h
  unfold setTracked
  by_cases hcp : c.pid = p
  · exact ⟨{ c with tracked := true }, List.mem_map.mpr ⟨c, hc, by simp [hcp]⟩,
      h1, rfl⟩
  · exact ⟨c, List.mem_map.mpr ⟨c, hc, by simp [hcp]⟩, h1, h2⟩

theorem setTracked_forall_dead (cs : List Child) (p x : Nat)
    (h : ∀ c ∈ cs, c.pid = x → c.alive = false) :
    ∀ c ∈ setTracked cs p, c.pid = x → c.alive = false := by
  intro c' hc' hx
  obtain ⟨c, hc, rfl⟩ := List.mem_map.mp hc'
  have hpid : (if c.pid = p then { c with tracked := true } else c).pid
      = c.pid := by
    by_cases hcp : c.pid = p <;> simp [hcp]
  have halive : (if c.pid = p then { c with tracked := true } else c).alive
      = c.alive := by
    by_cases hcp : c.pid = p <;> simp [hcp]
  rw [halive]
  exact h c hc (by rw [← hpid]; exact hx)

theorem setStoppedChild_eq_map (cs : List Child) (p : Nat) (b : Bool) :
    setStoppedChild cs p b =
      cs.map (fun c => if c.pid = p then { c with stopped := b } else c) := rfl

theorem setDead_eq_map (cs : List Child) (p : Nat) :
    setDead cs p =
      cs.map (fun c => if c.pid = p then { c with alive := false } else c) := rfl

theorem setDead_kills (cs : List Child) (p : Nat) :
    ∀ c ∈ setDead cs p, c.pid = p → c.alive = false := by
  intro c' hc' hx
  obtain ⟨c, hc, rfl⟩ := List.mem_map.mp hc'
  by_cases hcp : c.pid = p
  · simp [hcp]
  · simp only [if_neg hcp] at hx ⊢
    exact absurd hx hcp

theorem hasChildPid_false_iff (cs : List Child) (p : Nat) :
    hasChildPid cs p = false ↔ p ∉ cs.map Child.pid := by
  unfold hasChildPid
  rw [List.any_eq_false]
  constructor
  · intro h hm
    obtain ⟨c, hc, rfl⟩ := List.mem_map.mp hm
    exact h c hc (by simp)
  · intro h c hc hcp
    rw [beq_iff_eq] at hcp
    exact h (List.mem_map.mpr ⟨c, hc, hcp⟩)

theorem childIs_exists (cs : List Child) (p : Nat) (f : Child → Bool)
    (h : childIs cs p f = true) :
    ∃ c ∈ cs, c.pid = p ∧ f c = true := by
  unfold childIs at h
  rw [List.any_eq_true] at h
  obtain ⟨c, hc, hcf⟩ := h
  rw [Bool.and_eq_true, beq_iff_eq] at hcf
  exact ⟨c, hc, hcf.1, hcf.2⟩

theorem reapTermOf_sublist (p : Nat) (q : List (Nat × WRes)) :
    (reapTermOf p q).Sublist q := by
  induction q with
  | nil => simp [reapTermOf]
  | cons pw rest ih =>
      unfold reapTermOf
      by_cases h : (pw.1 == p && isTerm pw.2) = true
      · obtain ⟨a, b⟩ := pw
        simp only at h
        rw [h]
        exact List.sublist_cons_self _ _
      · obtain ⟨a, b⟩ := pw
        simp only at h
        rw [Bool.not_eq_true] at h
        rw [h]
        exact ih.cons₂ _

/-! ## do_bgfg reduction lemmas -/

theorem do_bgfg_pct_none (jobs : List job_t) (cmd0 : List Char)
    (a : List Char) (hj : getjobjid jobs (atoi a) = none) :
    do_bgfg jobs cmd0 (some ('%' :: a)) =
      { table := jobs, out := ["%" ++ toString (atoi a) ++ ": No such job"],
        kills := [], waited := none } := by
  simp only [do_bgfg]
  rw [hj]

theorem do_bgfg_pct_fg (jobs : List job_t) (a : List Char) (job : job_t)
    (hj : getjobjid jobs (atoi a) = some job) :
    do_bgfg jobs "fg".toList (some ('%' :: a)) =
      { table := updateStateJid jobs (atoi a) FG, out := [],
        kills := [{ target := -(job.pid : Int), signal := SIGCONT }],
        waited := some job.pid } := by
  simp only [do_bgfg]
  rw [hj]
  simp

theorem do_bgfg_pct_bg (jobs : List job_t) (a : List Char) (job : job_t)
    (hj : getjobjid jobs (atoi a) = some job) :
    do_bgfg jobs "bg".toList (some ('%' :: a)) =
      { table := updateStateJid jobs (atoi a) BG,
        out := ["[" ++ toString job.jid ++ "] (" ++ toString job.pid ++
          ") " ++ job.cmdline],
        kills := [{ target := -(job.pid : Int), signal := SIGCONT }],
        waited := none } := by
  simp only [do_bgfg]
  rw [hj]
  have : ("bg".toList = "fg".toList) = False := by simp
  simp [this]

/-! ## The reachable-state invariant of the shell model -/

/-- Invariant of every reachable shell state.  `phaseB` is the blocking
discipline of the spawn path: between fork and registration `SIGCHLD` is
blocked and the main loop is not inside `waitfg`.  `qtl` says a pid has no
pending status after its pending termination; `pok` that no two slots hold
the same nonzero pid; `qchild`/`cpos`/`cnodup` relate pending statuses and
children; `tdead` that a pending termination belongs to a dead child;
`echild` that every nonzero table pid belongs to a registered child;
`infUn`/`infEx` that the freshly forked child exists and is not yet
registered. -/
structure ShellInv (s : Shell) : Prop where
  phaseB : ∀ p bg cmd, s.phase = Phase.forked p bg cmd →
    s.blocked = true ∧ s.mode = Mode.atPrompt
  qtl : s.queue.Pairwise termLast
  pok : pidsOK s.jobs
  qchild : ∀ pw ∈ s.queue, pw.1 ∈ s.children.map Child.pid
  cpos : ∀ x ∈ s.children.map Child.pid, x ≠ 0
  cnodup : (s.children.map Child.pid).Nodup
  tdead : ∀ pw ∈ s.queue, isTerm pw.2 = true →
    ∀ c ∈ s.children, c.pid = pw.1 → c.alive = false
  echild : ∀ x ∈ s.jobs.map job_t.pid, x ≠ 0 →
    ∃ c ∈ s.children, c.pid = x ∧ c.tracked = true
  infUn : ∀ p bg cmd, s.phase = Phase.forked p bg cmd →
    ∀ c ∈ s.children, c.pid = p → c.tracked = false
  infEx : ∀ p bg cmd, s.phase = Phase.forked p bg cmd →
    p ∈ s.children.map Child.pid

theorem inv_initShell : ShellInv initShell := by
  refine ⟨?_, List.Pairwise.nil, by unfold pidsOK; decide, ?_, ?_, ?_, ?_,
    by decide, ?_, ?_⟩
  · intro p bg cmd heq
    exact absurd heq (by simp [initShell])
  · intro pw hpw
    exact absurd hpw (by simp [initShell])
  · intro x hx
    exact absurd hx (by simp [initShell])
  · simp [initShell]
  · intro pw hpw
    exact absurd hpw (by simp [initShell])
  · intro p bg cmd heq
    exact absurd heq (by simp [initShell])
  · intro p bg cmd heq
    exact absurd heq (by simp [initShell])

theorem inv_step (s : Shell) (e : Ev) (h : ShellInv s) : ShellInv (step s e) := by
  by_cases hcr : s.crashed = true
  · simp only [step, if_pos hcr]
    exact h
  · cases e with
    | spawnA p bg cmd =>
        simp only [step, if_neg hcr]
        by_cases hg : s.phase = Phase.idle ∧ s.mode = Mode.atPrompt ∧ 1 ≤ p ∧
            hasChildPid s.children p = false
        · rw [if_pos hg]
          obtain ⟨hph, hmd, hp1, hfr⟩ := hg
          have hpnot : p ∉ s.children.map Child.pid :=
            (hasChildPid_false_iff s.children p).mp hfr
          refine ⟨?_, h.qtl, h.pok, ?_, ?_, ?_, ?_, ?_, ?_, ?_⟩
          · intro p' bg' cmd' _
            exact ⟨rfl, hmd⟩
          · intro pw hpw
            rw [List.map_append]
            exact List.mem_append_left _ (h.qchild pw hpw)
          · intro x hx
            rw [List.map_append] at hx
            rcases List.mem_append.mp hx with hx | hx
            · exact h.cpos x hx
            · simp at hx
              omega
          · rw [List.map_append]
            refine ((List.perm_append_singleton _ _).nodup_iff).mpr ?_
            rw [List.nodup_cons]
            exact ⟨hpnot, h.cnodup⟩
          · intro pw hpw ht c hc hcp
            rcases List.mem_append.mp hc with hc | hc
            · exact h.tdead pw hpw ht c hc hcp
            · exfalso
              simp at hc
              subst hc
              have hq : pw.1 ∈ s.children.map Child.pid := h.qchild pw hpw
              rw [← hcp] at hq
              exact hpnot hq
          · intro x hx hx0
            obtain ⟨c, hc, h1, h2⟩ := h.echild x hx hx0
            exact ⟨c, List.mem_append_left _ hc, h1, h2⟩
          · intro p' bg' cmd' heq c hc hcp
            injection heq with h1 h2 h3
            subst h1
            rcases List.mem_append.mp hc with hc | hc
            · exact absurd (List.mem_map.mpr ⟨c, hc, hcp⟩) hpnot
            · simp at hc
              subst hc
              rfl
          · intro p' bg' cmd' heq
            injection heq with h1 h2 h3
            subst h1
            rw [List.map_append]
            exact List.mem_append_right _ (by simp)
        · rw [if_neg hg]
          exact h
    | spawnB =>
        simp only [step, if_neg hcr]
        rcases hph : s.phase with _ | ⟨p, bg, cmd⟩
        · simp only [hph]
          exact h
        · simp only [hph]
          by_cases hs : (addjob s.jobs p (if bg then BG else FG) cmd).2.1 = true
          · rw [if_pos hs]
            have hpEx : p ∈ s.children.map Child.pid := h.infEx p bg cmd hph
            have hpUn : ∀ c ∈ s.children, c.pid = p → c.tracked = false :=
              h.infUn p bg cmd hph
            have hp0 : p ≠ 0 := h.cpos p hpEx
            have hfr : ∀ x ∈ s.jobs.map job_t.pid, x ≠ 0 → x ≠ p := by
              intro x hx hx0 hxp
              subst hxp
              obtain ⟨c, hc, h1, h2⟩ := h.echild x hx hx0
              rw [hpUn c hc h1] at h2
              exact absurd h2 (by simp)
            have haddj : (addjob s.jobs p (if bg then BG else FG) cmd).1 =
                (addjobGo p (freejid s.jobs) (if bg then BG else FG) cmd
                  s.jobs).1 := by
              by_cases hf : freejid s.jobs = 0
              · exfalso
                unfold addjob at hs
                have hpl : ¬ p < 1 := by omega
                simp [hpl, hf] at hs
              · unfold addjob
                have hpl : ¬ p < 1 := by omega
                simp [hpl, hf]
            refine ⟨?_, h.qtl, ?_, ?_, ?_, ?_, ?_, ?_, ?_, ?_⟩
            · intro p' bg' cmd' heq
              exact absurd heq (by simp)
            · show pidsOK (addjob s.jobs p (if bg then BG else FG) cmd).1
              rw [haddj]
              exact pidsOK_addjobGo s.jobs p _ _ cmd h.pok hp0 hfr
            · intro pw hpw
              rw [setTracked_map_pid]
              exact h.qchild pw hpw
            · intro x hx
              rw [setTracked_map_pid] at hx
              exact h.cpos x hx
            · rw [setTracked_map_pid]
              exact h.cnodup
            · intro pw hpw ht c hc hcp
              exact setTracked_forall_dead s.children p pw.1
                (fun c' hc' hcp' => h.tdead pw hpw ht c' hc' hcp') c hc hcp
            · intro x hx hx0
              have hx2 : x ∈ ((addjob s.jobs p (if bg then BG else FG)
                  cmd).1).map job_t.pid := hx
              rw [haddj] at hx2
              rcases addjobGo_pid_mem s.jobs p (freejid s.jobs) _ cmd x hx2
                with hxp | hxm
              · subst hxp
                exact setTracked_exists s.children x hpEx
              · exact setTracked_exists_tracked s.children p x
                  (h.echild x hxm hx0)
            · intro p' bg' cmd' heq
              exact absurd heq (by simp)
            · intro p' bg' cmd' heq
              exact absurd heq (by simp)
          · rw [if_neg hs]
            refine ⟨?_, h.qtl, h.pok, h.qchild, h.cpos, h.cnodup, h.tdead,
              h.echild, ?_, ?_⟩
            · intro p' bg' cmd' heq
              exact absurd heq (by simp)
            · intro p' bg' cmd' heq
              exact absurd heq (by simp)
            · intro p' bg' cmd' heq
              exact absurd heq (by simp)
    | spawnFail =>
        simp only [step, if_neg hcr]
        by_cases hg : s.phase = Phase.idle ∧ s.mode = Mode.atPrompt
        · rw [if_pos hg]
          refine ⟨?_, h.qtl, h.pok, h.qchild, h.cpos, h.cnodup, h.tdead,
            h.echild, ?_, ?_⟩
          · intro p' bg' cmd' heq
            have heq2 : s.phase = Phase.forked p' bg' cmd' := heq
            rw [hg.1] at heq2
            exact absurd heq2 (by simp)
          · intro p' bg' cmd' heq
            have heq2 : s.phase = Phase.forked p' bg' cmd' := heq
            rw [hg.1] at heq2
            exact absurd heq2 (by simp)
          · intro p' bg' cmd' heq
            have heq2 : s.phase = Phase.forked p' bg' cmd' := heq
            rw [hg.1] at heq2
            exact absurd heq2 (by simp)
        · rw [if_neg hg]
          exact h
    | childStop p sg =>
        simp only [step, if_neg hcr]
        by_cases hg : childIs s.children p (fun c => c.alive && !c.stopped)
            = true
        · rw [if_pos hg]
          obtain ⟨c0, hc0, hc0p, hc0f⟩ := childIs_exists _ _ _ hg
          rw [Bool.and_eq_true] at hc0f
          refine ⟨?_, ?_, h.pok, ?_, ?_, ?_, ?_, ?_, ?_, ?_⟩
          · intro p' bg' cmd' heq
            exact h.phaseB p' bg' cmd' heq
          · rw [List.pairwise_append]
            refine ⟨h.qtl, List.pairwise_singleton _ _, ?_⟩
            intro a ha b hb
            simp only [List.mem_singleton] at hb
            subst hb
            intro hab
            by_cases hta : isTerm a.2 = true
            · exfalso
              have hdead := h.tdead a ha hta c0 hc0 (hc0p.trans hab.symm)
              rw [hdead] at hc0f
              exact absurd hc0f.1 (by simp)
            · simpa using hta
          · intro pw hpw
            rw [setStoppedChild_eq_map,
              childMap_map_pid _ _ (childMapOK_setStopped p true)]
            rcases List.mem_append.mp hpw with hpw | hpw
            · exact h.qchild pw hpw
            · simp only [List.mem_singleton] at hpw
              subst hpw
              exact List.mem_map.mpr ⟨c0, hc0, hc0p⟩
          · intro x hx
            rw [setStoppedChild_eq_map,
              childMap_map_pid _ _ (childMapOK_setStopped p true)] at hx
            exact h.cpos x hx
          · rw [setStoppedChild_eq_map,
              childMap_map_pid _ _ (childMapOK_setStopped p true)]
            exact h.cnodup
          · intro pw hpw ht c hc hcp
            rcases List.mem_append.mp hpw with hpw | hpw
            · rw [setStoppedChild_eq_map] at hc
              exact childMap_forall_dead _ _ (childMapOK_setStopped p true)
                pw.1 (fun c' hc' hcp' => h.tdead pw hpw ht c' hc' hcp')
                c hc hcp
            · simp only [List.mem_singleton] at hpw
              subst hpw
              exact absurd ht (by simp [isTerm])
          · intro x hx hx0
            rw [setStoppedChild_eq_map]
            exact childMap_exists_tracked _ _ (childMapOK_setStopped p true)
              x (h.echild x hx hx0)
          · intro p' bg' cmd' heq
            rw [setStoppedChild_eq_map]
            exact childMap_forall_untracked _ _ (childMapOK_setStopped p true)
              p' (h.infUn p' bg' cmd' heq)
          · intro p' bg' cmd' heq
            rw [setStoppedChild_eq_map,
              childMap_map_pid _ _ (childMapOK_setStopped p true)]
            exact h.infEx p' bg' cmd' heq
        · rw [if_neg hg]
          exact h
    | childTerm p sg =>
        simp only [step, if_neg hcr]
        by_cases hg : childIs s.children p (fun c => c.alive) = true
        · rw [if_pos hg]
          obtain ⟨c0, hc0, hc0p, hc0f⟩ := childIs_exists _ _ _ hg
          refine ⟨?_, ?_, h.pok, ?_, ?_, ?_, ?_, ?_, ?_, ?_⟩
          · intro p' bg' cmd' heq
            exact h.phaseB p' bg' cmd' heq
          · rw [List.pairwise_append]
            refine ⟨h.qtl, List.pairwise_singleton _ _, ?_⟩
            intro a ha b hb
            simp only [List.mem_singleton] at hb
            subst hb
            intro hab
            by_cases hta : isTerm a.2 = true
            · exfalso
              have hdead := h.tdead a ha hta c0 hc0 (hc0p.trans hab.symm)
              rw [hdead] at hc0f
              exact absurd hc0f (by simp)
            · simpa using hta
          · intro pw hpw
            rw [setDead_eq_map, childMap_map_pid _ _ (childMapOK_setDead p)]
            rcases List.mem_append.mp hpw with hpw | hpw
            · exact h.qchild pw hpw
            · simp only [List.mem_singleton] at hpw
              subst hpw
              exact List.mem_map.mpr ⟨c0, hc0, hc0p⟩
          · intro x hx
            rw [setDead_eq_map, childMap_map_pid _ _ (childMapOK_setDead p)]
              at hx
            exact h.cpos x hx
          · rw [setDead_eq_map, childMap_map_pid _ _ (childMapOK_setDead p)]
            exact h.cnodup
          · intro pw hpw ht c hc hcp
            rcases List.mem_append.mp hpw with hpw | hpw
            · rw [setDead_eq_map] at hc
              exact childMap_forall_dead _ _ (childMapOK_setDead p) pw.1
                (fun c' hc' hcp' => h.tdead pw hpw ht c' hc' hcp') c hc hcp
            · simp only [List.mem_singleton] at hpw
              subst hpw
              exact setDead_kills s.children p c hc hcp
          · intro x hx hx0
            rw [setDead_eq_map]
            exact childMap_exists_tracked _ _ (childMapOK_setDead p) x
              (h.echild x hx hx0)
          · intro p' bg' cmd' heq
            rw [setDead_eq_map]
            exact childMap_forall_untracked _ _ (childMapOK_setDead p) p'
              (h.infUn p' bg' cmd' heq)
          · intro p' bg' cmd' heq
            rw [setDead_eq_map, childMap_map_pid _ _ (childMapOK_setDead p)]
            exact h.infEx p' bg' cmd' heq
        · rw [if_neg hg]
          exact h
    | sigchld =>
        simp only [step, if_neg hcr]
        by_cases hd : chldDeliverable s = true
        · rw [if_pos hd]
          have hsub := sigchld_loop_queue_sublist s.queue s.jobs s.cf
          refine ⟨?_, ?_, ?_, ?_, h.cpos, h.cnodup, ?_, ?_, ?_, ?_⟩
          · intro p' bg' cmd' heq
            exact h.phaseB p' bg' cmd' heq
          · exact List.Pairwise.sublist hsub h.qtl
          · exact pidsOK_sigchld_loop s.queue s.jobs s.cf h.pok
          · intro pw hpw
            exact h.qchild pw (hsub.subset hpw)
          · intro pw hpw ht c hc hcp
            exact h.tdead pw (hsub.subset hpw) ht c hc hcp
          · intro x hx hx0
            rcases sigchld_loop_table_pid s.queue s.jobs s.cf x hx with h0 | hm
            · omega
            · exact h.echild x hm hx0
          · intro p' bg' cmd' heq
            exact h.infUn p' bg' cmd' heq
          · intro p' bg' cmd' heq
            exact h.infEx p' bg' cmd' heq
        · rw [if_neg hd]
          exact h
    | waitfgCheck =>
        simp only [step, if_neg hcr]
        rcases hmd : s.mode with _ | p
        · simp only [hmd]
          exact h
        · simp only [hmd]
          by_cases hcf : s.cf = true
          · rw [if_pos hcf]
            have hsub := reapTermOf_sublist p s.queue
            refine ⟨?_, List.Pairwise.sublist hsub h.qtl, h.pok, ?_, h.cpos,
              h.cnodup, ?_, h.echild, ?_, ?_⟩
            · intro p' bg' cmd' heq
              exact ⟨(h.phaseB p' bg' cmd' heq).1, rfl⟩
            · intro pw hpw
              exact h.qchild pw (hsub.subset hpw)
            · intro pw hpw ht c hc hcp
              exact h.tdead pw (hsub.subset hpw) ht c hc hcp
            · intro p' bg' cmd' heq
              exact h.infUn p' bg' cmd' heq
            · intro p' bg' cmd' heq
              exact h.infEx p' bg' cmd' heq
          · rw [if_neg hcf]
            exact h
    | cmdFg a =>
        simp only [step, if_neg hcr]
        by_cases hg : s.phase = Phase.idle ∧ s.mode = Mode.atPrompt
        · rw [if_pos hg]
          rcases hj : getjobjid s.jobs (atoi a) with _ | job
          · rw [do_bgfg_pct_none s.jobs _ a hj]
            refine ⟨?_, h.qtl, h.pok, h.qchild, h.cpos, h.cnodup, h.tdead,
              h.echild, ?_, ?_⟩
            · intro p' bg' cmd' heq
              have heq2 : s.phase = Phase.forked p' bg' cmd' := heq
              rw [hg.1] at heq2
              exact absurd heq2 (by simp)
            · intro p' bg' cmd' heq
              have heq2 : s.phase = Phase.forked p' bg' cmd' := heq
              rw [hg.1] at heq2
              exact absurd heq2 (by simp)
            · intro p' bg' cmd' heq
              have heq2 : s.phase = Phase.forked p' bg' cmd' := heq
              rw [hg.1] at heq2
              exact absurd heq2 (by simp)
          · rw [do_bgfg_pct_fg s.jobs a job hj]
            refine ⟨?_, h.qtl, ?_, ?_, ?_, ?_, ?_, ?_, ?_, ?_⟩
            · intro p' bg' cmd' heq
              have heq2 : s.phase = Phase.forked p' bg' cmd' := heq
              rw [hg.1] at heq2
              exact absurd heq2 (by simp)
            · show pidsOK (updateStateJid s.jobs (atoi a) FG)
              rw [pidsOK, updateStateJid_map_pid]
              exact h.pok
            · intro pw hpw
              rw [applyCont_map_pid]
              exact h.qchild pw hpw
            · intro x hx
              rw [applyCont_map_pid] at hx
              exact h.cpos x hx
            · rw [applyCont_map_pid]
              exact h.cnodup
            · intro pw hpw ht c hc hcp
              exact applyCont_forall_dead _ s.children pw.1
                (fun c' hc' hcp' => h.tdead pw hpw ht c' hc' hcp') c hc hcp
            · intro x hx hx0
              rw [show (updateStateJid s.jobs (atoi a) FG).map job_t.pid
                  = s.jobs.map job_t.pid from updateStateJid_map_pid _ _ _]
                at hx
              exact applyCont_exists_tracked _ s.children x
                (h.echild x hx hx0)
            · intro p' bg' cmd' heq
              have heq2 : s.phase = Phase.forked p' bg' cmd' := heq
              rw [hg.1] at heq2
              exact absurd heq2 (by simp)
            · intro p' bg' cmd' heq
              have heq2 : s.phase = Phase.forked p' bg' cmd' := heq
              rw [hg.1] at heq2
              exact absurd heq2 (by simp)
        · rw [if_neg hg]
          exact h
    | cmdBg a =>
        simp only [step, if_neg hcr]
        by_cases hg : s.phase = Phase.idle ∧ s.mode = Mode.atPrompt
        · rw [if_pos hg]
          rcases hj : getjobjid s.jobs (atoi a) with _ | job
          · rw [do_bgfg_pct_none s.jobs _ a hj]
            refine ⟨?_, h.qtl, h.pok, h.qchild, h.cpos, h.cnodup, h.tdead,
              h.echild, ?_, ?_⟩
            · intro p' bg' cmd' heq
              have heq2 : s.phase = Phase.forked p' bg' cmd' := heq
              rw [hg.1] at heq2
              exact absurd heq2 (by simp)
            · intro p' bg' cmd' heq
              have heq2 : s.phase = Phase.forked p' bg' cmd' := heq
              rw [hg.1] at heq2
              exact absurd heq2 (by simp)
            · intro p' bg' cmd' heq
              have heq2 : s.phase = Phase.forked p' bg' cmd' := heq
              rw [hg.1] at heq2
              exact absurd heq2 (by simp)
          · rw [do_bgfg_pct_bg s.jobs a job hj]
            refine ⟨?_, h.qtl, ?_, ?_, ?_, ?_, ?_, ?_, ?_, ?_⟩
            · intro p' bg' cmd' heq
              have heq2 : s.phase = Phase.forked p' bg' cmd' := heq
              rw [hg.1] at heq2
              exact absurd heq2 (by simp)
            · show pidsOK (updateStateJid s.jobs (atoi a) BG)
              rw [pidsOK, updateStateJid_map_pid]
              exact h.pok
            · intro pw hpw
              rw [applyCont_map_pid]
              exact h.qchild pw hpw
            · intro x hx
              rw [applyCont_map_pid] at hx
              exact h.cpos x hx
            · rw [applyCont_map_pid]
              exact h.cnodup
            · intro pw hpw ht c hc hcp
              exact applyCont_forall_dead _ s.children pw.1
                (fun c' hc' hcp' => h.tdead pw hpw ht c' hc' hcp') c hc hcp
            · intro x hx hx0
              rw [show (updateStateJid s.jobs (atoi a) BG).map job_t.pid
                  = s.jobs.map job_t.pid from updateStateJid_map_pid _ _ _]
                at hx
              exact applyCont_exists_tracked _ s.children x
                (h.echild x hx hx0)
            · intro p' bg' cmd' heq
              have heq2 : s.phase = Phase.forked p' bg' cmd' := heq
              rw [hg.1] at heq2
              exact absurd heq2 (by simp)
            · intro p' bg' cmd' heq
              have heq2 : s.phase = Phase.forked p' bg' cmd' := heq
              rw [hg.1] at heq2
              exact absurd heq2 (by simp)
        · rw [if_neg hg]
          exact h

theorem inv_runShell (evs : List Ev) : ShellInv (runShell initShell evs) := by
  suffices hs : ∀ s, ShellInv s → ShellInv (runShell s evs) from hs initShell inv_initShell
  induction evs with
  | nil => exact fun s hsv => hsv
  | cons e rest ih => exact fun s hsv => ih (step s e) (inv_step s e hsv)

/-- C2.  In every reachable state of the shell model: (a) while the spawn
path is between fork and registration, `SIGCHLD` is blocked and a delivery
of the child-termination signal is a no-op, so no interleaving lets the
handler observe (or reap) the forked pid before its job-table entry
exists; (b) whenever a delivery of the child-termination signal makes the
handler consume a pending termination notification for a pid, the
resulting job table holds no entry for that pid — the job registered for
it has been removed and no ghost entry remains. -/
theorem c2_spawn_blocking_no_ghost (evs : List Ev) :
    (∀ p bg cmd,
      (runShell initShell evs).phase = Phase.forked p bg cmd →
      (runShell initShell evs).blocked = true ∧
      step (runShell initShell evs) Ev.sigchld = runShell initShell evs) ∧
    (∀ p w, isTerm w = true →
      (p, w) ∈ (runShell initShell evs).queue →
      (p, w) ∉ (step (runShell initShell evs) Ev.sigchld).queue →
      ∀ x ∈ (step (runShell initShell evs) Ev.sigchld).jobs.map job_t.pid,
        x ≠ p) := by
  have hi := inv_runShell evs
  set s := runShell initShell evs with hsdef
  constructor
  · intro p bg cmd heq
    obtain ⟨hb, hm⟩ := hi.phaseB p bg cmd heq
    refine ⟨hb, ?_⟩
    by_cases hcr : s.crashed = true
    · simp only [step, if_pos hcr]
    · simp only [step, if_neg hcr]
      have hnd : ¬ chldDeliverable s = true := by
        unfold chldDeliverable
        rw [hb, hm]
        simp
      rw [if_neg hnd]
  · intro p w hterm hmem hnot
    by_cases hcr : s.crashed = true
    · simp only [step, if_pos hcr] at hnot ⊢
      exact absurd hmem hnot
    · simp only [step, if_neg hcr] at hnot ⊢
      by_cases hd : chldDeliverable s = true
      · rw [if_pos hd] at hnot ⊢
        exact sigchld_loop_term_removed s.queue s.jobs s.cf p w hi.qtl hi.pok
          (fun pw hpw => hi.cpos pw.1 (hi.qchild pw hpw)) hterm hmem hnot
      · rw [if_neg hd] at hnot ⊢
        exact absurd hmem hnot

/-- Event trace for the C2 witness, part (b): a foreground spawn whose
child is terminated by signal 9 before the handler runs. -/
def c2wtrace : List Ev :=
  [Ev.spawnA 5 false "w", Ev.spawnB, Ev.childTerm 5 9]

/-- Event trace for the C2 witness, part (a): a spawn interrupted between
fork and registration. -/
def c2wtrace2 : List Ev := [Ev.spawnA 6 false "x"]

/-- Witness for C2 at concrete traces: mid-spawn, `SIGCHLD` is blocked and
its delivery changes nothing; and after the handler consumes the pending
termination of pid 5, no table entry with pid 5 remains. -/
theorem c2_witness :
    ((runShell initShell c2wtrace2).blocked = true ∧
      step (runShell initShell c2wtrace2) Ev.sigchld =
        runShell initShell c2wtrace2) ∧
    (5 : Nat) ∉ (step (runShell initShell c2wtrace) Ev.sigchld).jobs.map
      job_t.pid := by
  constructor
  · exact (c2_spawn_blocking_no_ghost c2wtrace2).1 6 false "x" (by decide)
  · intro hmem
    exact absurd rfl
      ((c2_spawn_blocking_no_ghost c2wtrace).2 5 (WRes.signaled 9)
        (by decide) (by decide) (by decide) 5 hmem)

/-! ## Lemmas for crash-freedom of the handler under successful adds -/

theorem addjobGo_keep_pid (t : List job_t) (pid jid st : Nat) (cmd : String)
    (x : Nat) (hx0 : x ≠ 0) (hx : x ∈ t.map job_t.pid) :
    x ∈ (addjobGo pid jid st cmd t).1.map job_t.pid := by
  induction t with
  | nil => simp at hx
  | cons e r ih =>
      rw [List.map_cons, List.mem_cons] at hx
      by_cases he : e.pid = 0
      · simp only [addjobGo, if_pos he, List.map_cons, List.mem_cons]
        rcases hx with hx | hx
        · omega
        · exact Or.inr hx
      · simp only [addjobGo, if_neg he, List.map_cons, List.mem_cons]
        rcases hx with hx | hx
        · exact Or.inl hx
        · exact Or.inr (ih hx)

theorem addjob_keep_pid (t : List job_t) (p st : Nat) (cmd : String)
    (x : Nat) (hx0 : x ≠ 0) (hx : x ∈ t.map job_t.pid) :
    x ∈ (addjob t p st cmd).1.map job_t.pid := by
  unfold addjob
  by_cases hp : p < 1
  · simp only [if_pos hp]
    exact hx
  · simp only [if_neg hp]
    by_cases hf : freejid t = 0
    · rw [hf]
      simp only [if_pos rfl]
      exact hx
    · simp only [hf, if_neg]
      exact addjobGo_keep_pid t p (freejid t) st cmd x hx0 hx

theorem addjob_adds_pid (t : List job_t) (p st : Nat) (cmd : String)
    (hs : (addjob t p st cmd).2.1 = true) :
    p ∈ (addjob t p st cmd).1.map job_t.pid := by
  unfold addjob at hs ⊢
  by_cases hp : p < 1
  · simp [hp] at hs
  · simp only [if_neg hp] at hs ⊢
    by_cases hf : freejid t = 0
    · simp [hf] at hs
    · simp only [hf, if_neg] at hs ⊢
      have := addjobGo_mem t p (freejid t) st cmd (by simpa using hs)
      exact List.mem_map.mpr ⟨_, this, rfl⟩

theorem deletejobGo_keep_pid (t : List job_t) (p x : Nat) (hxp : x ≠ p)
    (hx : x ∈ t.map job_t.pid) : x ∈ (deletejobGo p t).1.map job_t.pid := by
  induction t with
  | nil => simp at hx
  | cons e r ih =>
      rw [List.map_cons, List.mem_cons] at hx
      by_cases he : e.pid = p
      · simp only [deletejobGo, if_pos he, List.map_cons, List.mem_cons]
        rcases hx with hx | hx
        · exact absurd (hx.trans he) hxp
        · exact Or.inr hx
      · simp only [deletejobGo, if_neg he, List.map_cons, List.mem_cons]
        rcases hx with hx | hx
        · exact Or.inl hx
        · exact Or.inr (ih hx)

theorem deletejob_keep_pid (t : List job_t) (p x : Nat) (hxp : x ≠ p)
    (hx : x ∈ t.map job_t.pid) : x ∈ (deletejob t p).1.map job_t.pid := by
  unfold deletejob
  by_cases hp : p < 1
  · simp only [if_pos hp]
    exact hx
  · simp only [if_neg hp]
    exact deletejobGo_keep_pid t p x hxp hx

theorem getjobpid_some (jobs : List job_t) (p : Nat) (hp : p ≠ 0)
    (hx : p ∈ jobs.map job_t.pid) : ∃ j, getjobpid jobs p = some j := by
  unfold getjobpid
  have hpl : ¬ p < 1 := by omega
  rw [if_neg hpl]
  obtain ⟨e, he, hep⟩ := List.mem_map.mp hx
  have : (jobs.find? (fun e => e.pid == p)).isSome := by
    rw [List.find?_isSome]
    exact ⟨e, he, by simp [hep]⟩
  exact Option.isSome_iff_exists.mp this

/-- Whenever a pid has no pending termination in the status list, its table
entries survive one handler invocation. -/
theorem sigchld_loop_keeps_pid (q : List (Nat × WRes)) :
    ∀ (jobs : List job_t) (cf : Bool) (x : Nat),
      (∀ pw ∈ q, isTerm pw.2 = true → pw.1 ≠ x) →
      x ∈ jobs.map job_t.pid →
      x ∈ (sigchld_loop jobs cf q).table.map job_t.pid := by
  induction q with
  | nil => intro jobs cf x _ hx; exact hx
  | cons pw rest ih =>
      intro jobs cf x hnt hx
      obtain ⟨p, w⟩ := pw
      cases w with
      | stopped sg =>
          cases hg : getjobpid jobs p with
          | none =>
              rw [sigchld_loop_stopped_none jobs cf p sg rest hg]
              exact hx
          | some j =>
              rw [sigchld_loop_stopped_some jobs cf p sg rest j hg]
              show x ∈ (updateStatePid jobs p ST').map job_t.pid
              rw [updateStatePid_map_pid]
              exact hx
      | signaled sg =>
          rw [sigchld_loop_signaled_eq]
          have hpx : p ≠ x := hnt (p, WRes.signaled sg) (by simp) (by simp [isTerm])
          exact ih (deletejob jobs p).1 true x
            (fun pw' hpw' ht => hnt pw' (List.mem_cons_of_mem _ hpw') ht)
            (deletejob_keep_pid jobs p x (by omega) hx)
      | exited c =>
          rw [sigchld_loop_exited_eq]
          have hpx : p ≠ x := hnt (p, WRes.exited c) (by simp) (by simp [isTerm])
          exact ih (deletejob jobs p).1 true x
            (fun pw' hpw' ht => hnt pw' (List.mem_cons_of_mem _ hpw') ht)
            (deletejob_keep_pid jobs p x (by omega) hx)

/-- When every pending stop's pid has a table entry (and the status list is
well-shaped), one handler invocation cannot crash, and the stops it leaves
pending still have table entries. -/
theorem sigchld_loop_no_crash (q : List (Nat × WRes)) :
    ∀ (jobs : List job_t) (cf : Bool),
      q.Pairwise termLast → (∀ pw ∈ q, pw.1 ≠ 0) →
      (∀ pw ∈ q, isTerm pw.2 = false → pw.1 ∈ jobs.map job_t.pid) →
      (sigchld_loop jobs cf q).crashed = false ∧
      (∀ pw ∈ (sigchld_loop jobs cf q).queue, isTerm pw.2 = false →
        pw.1 ∈ (sigchld_loop jobs cf q).table.map job_t.pid) := by
  induction q with
  | nil =>
      intro jobs cf _ _ _
      exact ⟨rfl, by intro pw hpw; exact absurd hpw (by simp [sigchld_loop])⟩
  | cons pw rest ih =>
      intro jobs cf hpair hpos hstop
      rw [List.pairwise_cons] at hpair
      obtain ⟨p, w⟩ := pw
      cases w with
      | stopped sg =>
          have hpmem : p ∈ jobs.map job_t.pid :=
            hstop (p, WRes.stopped sg) (by simp) (by simp [isTerm])
          obtain ⟨j, hg⟩ := getjobpid_some jobs p
            (hpos (p, WRes.stopped sg) (by simp)) hpmem
          rw [sigchld_loop_stopped_some jobs cf p sg rest j hg]
          refine ⟨rfl, ?_⟩
          intro pw' hpw' ht
          show pw'.1 ∈ (updateStatePid jobs p ST').map job_t.pid
          rw [updateStatePid_map_pid]
          exact hstop pw' (List.mem_cons_of_mem _ hpw') ht
      | signaled sg =>
          rw [sigchld_loop_signaled_eq]
          have hres := ih (deletejob jobs p).1 true hpair.2
            (fun pw' hpw' => hpos pw' (List.mem_cons_of_mem _ hpw'))
            (fun pw' hpw' ht => by
              have hxp : pw'.1 ≠ p := by
                intro hxe
                have := hpair.1 pw' hpw' hxe.symm
                simp [isTerm] at this
              exact deletejob_keep_pid jobs p pw'.1 hxp
                (hstop pw' (List.mem_cons_of_mem _ hpw') ht))
          exact ⟨hres.1, hres.2⟩
      | exited c =>
          rw [sigchld_loop_exited_eq]
          exact ih (deletejob jobs p).1 true hpair.2
            (fun pw' hpw' => hpos pw' (List.mem_cons_of_mem _ hpw'))
            (fun pw' hpw' ht => by
              have hxp : pw'.1 ≠ p := by
                intro hxe
                have := hpair.1 pw' hpw' hxe.symm
                simp [isTerm] at this
              exact deletejob_keep_pid jobs p pw'.1 hxp
                (hstop pw' (List.mem_cons_of_mem _ hpw') ht))

/-- Every child reachable through `applyCont` comes from a child with the
same pid and registration that was alive if the result is. -/
theorem applyCont_source (ks : List KillCall) :
    ∀ (cs : List Child) (c' : Child), c' ∈ applyCont cs ks →
      ∃ c ∈ cs, c.pid = c'.pid ∧ c.tracked = c'.tracked ∧
        (c'.alive = true → c.alive = true) := by
  induction ks with
  | nil => exact fun cs c' hc' => ⟨c', hc', rfl, rfl, fun hv => hv⟩
  | cons k rest ih =>
      intro cs c' hc'
      obtain ⟨c1, hc1, h1p, h1t, h1a⟩ := ih _ c' hc'
      obtain ⟨c, hc, rfl⟩ := List.mem_map.mp hc1
      have hf := childMapOK_cont k c
      exact ⟨c, hc, hf.1.symm.trans h1p, (hf.2.1).symm.trans h1t,
        fun hv => hf.2.2 (h1a hv)⟩

/-- Whether this event is a spawn registration that succeeds: the
no-failed-add side condition of one step. -/
def evOk (s : Shell) (e : Ev) : Bool :=
  match e, s.phase with
  | Ev.spawnB, Phase.forked p bg cmd =>
      (addjob s.jobs p (if bg then BG else FG) cmd).2.1
  | _, _ => true

/-- Every `addjob` along the run succeeds (the job table never overflows). -/
def addsOk : Shell → List Ev → Bool
  | _, [] => true
  | s, e :: rest => evOk s e && addsOk (step s e) rest

/-- Strengthened invariant holding along runs with no failed registration:
every unregistered child is the one currently mid-spawn, every pending
stop belongs to a pid with a table entry (or to the mid-spawn pid), every
live registered child has a table entry, and the handler has never
dereferenced a null job pointer. -/
structure ShellInvNF (s : Shell) : Prop where
  base : ShellInv s
  allTr : ∀ c ∈ s.children, c.tracked = false →
    ∃ bg cmd, s.phase = Phase.forked c.pid bg cmd
  stopEntry : ∀ pw ∈ s.queue, isTerm pw.2 = false →
    pw.1 ∈ s.jobs.map job_t.pid ∨
      ∃ bg cmd, s.phase = Phase.forked pw.1 bg cmd
  aliveEntry : ∀ c ∈ s.children, c.tracked = true → c.alive = true →
    c.pid ∈ s.jobs.map job_t.pid
  notCrashed : s.crashed = false

theorem invNF_initShell : ShellInvNF initShell := by
  refine ⟨inv_initShell, ?_, ?_, ?_, rfl⟩
  · intro c hc
    exact absurd hc (by simp [initShell])
  · intro pw hpw
    exact absurd hpw (by simp [initShell])
  · intro c hc
    exact absurd hc (by simp [initShell])

theorem invNF_step (s : Shell) (e : Ev) (h : ShellInvNF s)
    (hok : evOk s e = true) : ShellInvNF (step s e) := by
  have hbase := inv_step s e h.base
  have hcr : ¬ s.crashed = true := by rw [h.notCrashed]; simp
  cases e with
  | spawnA p bg cmd =>
      simp only [step, if_neg hcr] at hbase ⊢
      by_cases hg : s.phase = Phase.idle ∧ s.mode = Mode.atPrompt ∧ 1 ≤ p ∧
          hasChildPid s.children p = false
      · rw [if_pos hg] at hbase ⊢
        refine ⟨hbase, ?_, ?_, ?_, h.notCrashed⟩
        · intro c hc hct
          rcases List.mem_append.mp hc with hc | hc
          · obtain ⟨bg', cmd', hphf⟩ := h.allTr c hc hct
            rw [hg.1] at hphf
            exact absurd hphf (by simp)
          · simp only [List.mem_singleton] at hc
            subst hc
            exact ⟨bg, cmd, rfl⟩
        · intro pw hpw ht
          rcases h.stopEntry pw hpw ht with he | ⟨bg', cmd', hphf⟩
          · exact Or.inl he
          · rw [hg.1] at hphf
            exact absurd hphf (by simp)
        · intro c hc hct hca
          rcases List.mem_append.mp hc with hc | hc
          · exact h.aliveEntry c hc hct hca
          · simp only [List.mem_singleton] at hc
            subst hc
            simp at hct
      · rw [if_neg hg]
        exact h
  | spawnB =>
      simp only [step, if_neg hcr] at hbase ⊢
      rcases hph : s.phase with _ | ⟨p, bg, cmd⟩
      · simp only [hph] at hbase ⊢
        exact h
      · simp only [hph] at hbase ⊢
        have hs : (addjob s.jobs p (if bg then BG else FG) cmd).2.1 = true := by
          simp only [evOk, hph] at hok
          exact hok
        rw [if_pos hs] at hbase ⊢
        have hpadd : p ∈ (addjob s.jobs p (if bg then BG else FG) cmd).1.map
            job_t.pid := addjob_adds_pid s.jobs p _ cmd hs
        refine ⟨hbase, ?_, ?_, ?_, h.notCrashed⟩
        · intro c' hc' hct
          exfalso
          obtain ⟨c, hc, rfl⟩ := List.mem_map.mp hc'
          by_cases hcp : c.pid = p
          · simp [hcp] at hct
          · simp only [if_neg hcp] at hct
            obtain ⟨bg', cmd', hphf⟩ := h.allTr c hc hct
            rw [hph] at hphf
            injection hphf with h1 h2 h3
            exact hcp h1.symm
        · intro pw hpw ht
          refine Or.inl ?_
          rcases h.stopEntry pw hpw ht with he | ⟨bg', cmd', hphf⟩
          · have h0 : pw.1 ≠ 0 :=
              h.base.cpos pw.1 (h.base.qchild pw hpw)
            exact addjob_keep_pid s.jobs p _ cmd pw.1 h0 he
          · rw [hph] at hphf
            injection hphf with h1 h2 h3
            rw [← h1]
            exact hpadd
        · intro c' hc' hct hca
          obtain ⟨c, hc, rfl⟩ := List.mem_map.mp hc'
          by_cases hcp : c.pid = p
          · have hpid : (if c.pid = p then { c with tracked := true }
                else c).pid = p := by simp [hcp]
            rw [hpid]
            exact hpadd
          · simp only [if_neg hcp] at hct hca ⊢
            have h0 : c.pid ≠ 0 :=
              h.base.cpos c.pid (List.mem_map.mpr ⟨c, hc, rfl⟩)
            exact addjob_keep_pid s.jobs p _ cmd c.pid h0
              (h.aliveEntry c hc hct hca)
  | spawnFail =>
      simp only [step, if_neg hcr] at hbase ⊢
      by_cases hg : s.phase = Phase.idle ∧ s.mode = Mode.atPrompt
      · rw [if_pos hg] at hbase ⊢
        exact ⟨hbase, h.allTr, h.stopEntry, h.aliveEntry, h.notCrashed⟩
      · rw [if_neg hg]
        exact h
  | childStop p sg =>
      simp only [step, if_neg hcr] at hbase ⊢
      by_cases hg : childIs s.children p (fun c => c.alive && !c.stopped)
          = true
      · rw [if_pos hg] at hbase ⊢
        obtain ⟨c0, hc0, hc0p, hc0f⟩ := childIs_exists _ _ _ hg
        rw [Bool.and_eq_true] at hc0f
        refine ⟨hbase, ?_, ?_, ?_, h.notCrashed⟩
        · intro c' hc' hct
          rw [setStoppedChild_eq_map] at hc'
          obtain ⟨c, hc, rfl⟩ := List.mem_map.mp hc'
          have hf := childMapOK_setStopped p true c
          rw [hf.2.1] at hct
          obtain ⟨bg', cmd', hphf⟩ := h.allTr c hc hct
          rw [hf.1]
          exact ⟨bg', cmd', hphf⟩
        · intro pw hpw ht
          rcases List.mem_append.mp hpw with hpw | hpw
          · exact h.stopEntry pw hpw ht
          · simp only [List.mem_singleton] at hpw
            subst hpw
            by_cases hct : c0.tracked = true
            · exact Or.inl (hc0p ▸ h.aliveEntry c0 hc0 hct hc0f.1)
            · obtain ⟨bg', cmd', hphf⟩ :=
                h.allTr c0 hc0 (by simpa using hct)
              exact Or.inr ⟨bg', cmd', hc0p ▸ hphf⟩
        · intro c' hc' hct hca
          rw [setStoppedChild_eq_map] at hc'
          obtain ⟨c, hc, rfl⟩ := List.mem_map.mp hc'
          have hf := childMapOK_setStopped p true c
          rw [hf.2.1] at hct
          rw [hf.1]
          exact h.aliveEntry c hc hct (hf.2.2 hca)
      · rw [if_neg hg]
        exact h
  | childTerm p sg =>
      simp only [step, if_neg hcr] at hbase ⊢
      by_cases hg : childIs s.children p (fun c => c.alive) = true
      · rw [if_pos hg] at hbase ⊢
        refine ⟨hbase, ?_, ?_, ?_, h.notCrashed⟩
        · intro c' hc' hct
          rw [setDead_eq_map] at hc'
          obtain ⟨c, hc, rfl⟩ := List.mem_map.mp hc'
          have hf := childMapOK_setDead p c
          rw [hf.2.1] at hct
          obtain ⟨bg', cmd', hphf⟩ := h.allTr c hc hct
          rw [hf.1]
          exact ⟨bg', cmd', hphf⟩
        · intro pw hpw ht
          rcases List.mem_append.mp hpw with hpw | hpw
          · exact h.stopEntry pw hpw ht
          · simp only [List.mem_singleton] at hpw
            subst hpw
            by_cases hsg : sg = 0
            · rw [if_pos hsg] at ht
              simp [isTerm] at ht
            · rw [if_neg hsg] at ht
              simp [isTerm] at ht
        · intro c' hc' hct hca
          rw [setDead_eq_map] at hc'
          obtain ⟨c, hc, rfl⟩ := List.mem_map.mp hc'
          have hf := childMapOK_setDead p c
          rw [hf.2.1] at hct
          rw [hf.1]
          exact h.aliveEntry c hc hct (hf.2.2 hca)
      · rw [if_neg hg]
        exact h
  | sigchld =>
      simp only [step, if_neg hcr] at hbase ⊢
      by_cases hd : chldDeliverable s = true
      · rw [if_pos hd] at hbase ⊢
        have hstopE : ∀ pw ∈ s.queue, isTerm pw.2 = false →
            pw.1 ∈ s.jobs.map job_t.pid := by
          intro pw hpw ht
          rcases h.stopEntry pw hpw ht with he | ⟨bg', cmd', hphf⟩
          · exact he
          · exfalso
            obtain ⟨hb, hm⟩ := h.base.phaseB pw.1 bg' cmd' hphf
            unfold chldDeliverable at hd
            rw [hb, hm] at hd
            simp at hd
        have hnc := sigchld_loop_no_crash s.queue s.jobs s.cf h.base.qtl
          (fun pw hpw => h.base.cpos pw.1 (h.base.qchild pw hpw)) hstopE
        refine ⟨hbase, ?_, ?_, ?_, ?_⟩
        · exact fun c hc hct => h.allTr c hc hct
        · intro pw hpw ht
          exact Or.inl (hnc.2 pw hpw ht)
        · intro c hc hct hca
          refine sigchld_loop_keeps_pid s.queue s.jobs s.cf c.pid ?_
            (h.aliveEntry c hc hct hca)
          intro pw hpw ht hpe
          have := h.base.tdead pw hpw ht c hc hpe.symm
          rw [this] at hca
          exact absurd hca (by simp)
        · exact hnc.1
      · rw [if_neg hd]
        exact h
  | waitfgCheck =>
      simp only [step, if_neg hcr] at hbase ⊢
      rcases hmd : s.mode with _ | p
      · simp only [hmd] at hbase ⊢
        exact h
      · simp only [hmd] at hbase ⊢
        by_cases hcf : s.cf = true
        · rw [if_pos hcf] at hbase ⊢
          refine ⟨hbase, h.allTr, ?_, h.aliveEntry, h.notCrashed⟩
          intro pw hpw ht
          exact h.stopEntry pw ((reapTermOf_sublist p s.queue).subset hpw) ht
        · rw [if_neg hcf] at hbase ⊢
          exact h
  | cmdFg a =>
      simp only [step, if_neg hcr] at hbase ⊢
      by_cases hg : s.phase = Phase.idle ∧ s.mode = Mode.atPrompt
      · rw [if_pos hg] at hbase ⊢
        rcases hj : getjobjid s.jobs (atoi a) with _ | job
        · rw [do_bgfg_pct_none s.jobs _ a hj] at hbase ⊢
          exact ⟨hbase, h.allTr, h.stopEntry, h.aliveEntry, h.notCrashed⟩
        · rw [do_bgfg_pct_fg s.jobs a job hj] at hbase ⊢
          refine ⟨hbase, ?_, ?_, ?_, h.notCrashed⟩
          · intro c' hc' hct
            obtain ⟨c, hc, hcp, hctr, _⟩ := applyCont_source _ s.children c' hc'
            rw [← hctr] at hct
            obtain ⟨bg', cmd', hphf⟩ := h.allTr c hc hct
            rw [← hcp]
            exact ⟨bg', cmd', hphf⟩
          · intro pw hpw ht
            rcases h.stopEntry pw hpw ht with he | hf2
            · refine Or.inl ?_
              rw [show (updateStateJid s.jobs (atoi a) FG).map job_t.pid
                  = s.jobs.map job_t.pid from updateStateJid_map_pid _ _ _]
              exact he
            · exact Or.inr hf2
          · intro c' hc' hct hca
            obtain ⟨c, hc, hcp, hctr, hcal⟩ :=
              applyCont_source _ s.children c' hc'
            rw [← hctr] at hct
            rw [show (updateStateJid s.jobs (atoi a) FG).map job_t.pid
                = s.jobs.map job_t.pid from updateStateJid_map_pid _ _ _]
            rw [← hcp]
            exact h.aliveEntry c hc hct (hcal hca)
      · rw [if_neg hg]
        exact h
  | cmdBg a =>
      simp only [step, if_neg hcr] at hbase ⊢
      by_cases hg : s.phase = Phase.idle ∧ s.mode = Mode.atPrompt
      · rw [if_pos hg] at hbase ⊢
        rcases hj : getjobjid s.jobs (atoi a) with _ | job
        · rw [do_bgfg_pct_none s.jobs _ a hj] at hbase ⊢
          exact ⟨hbase, h.allTr, h.stopEntry, h.aliveEntry, h.notCrashed⟩
        · rw [do_bgfg_pct_bg s.jobs a job hj] at hbase ⊢
          refine ⟨hbase, ?_, ?_, ?_, h.notCrashed⟩
          · intro c' hc' hct
            obtain ⟨c, hc, hcp, hctr, _⟩ := applyCont_source _ s.children c' hc'
            rw [← hctr] at hct
            obtain ⟨bg', cmd', hphf⟩ := h.allTr c hc hct
            rw [← hcp]
            exact ⟨bg', cmd', hphf⟩
          · intro pw hpw ht
            rcases h.stopEntry pw hpw ht with he | hf2
            · refine Or.inl ?_
              rw [show (updateStateJid s.jobs (atoi a) BG).map job_t.pid
                  = s.jobs.map job_t.pid from updateStateJid_map_pid _ _ _]
              exact he
            · exact Or.inr hf2
          · intro c' hc' hct hca
            obtain ⟨c, hc, hcp, hctr, hcal⟩ :=
              applyCont_source _ s.children c' hc'
            rw [← hctr] at hct
            rw [show (updateStateJid s.jobs (atoi a) BG).map job_t.pid
                = s.jobs.map job_t.pid from updateStateJid_map_pid _ _ _]
            rw [← hcp]
            exact h.aliveEntry c hc hct (hcal hca)
      · rw [if_neg hg]
        exact h

theorem invNF_run (evs : List Ev) :
    ∀ s, ShellInvNF s → addsOk s evs = true → ShellInvNF (runShell s evs) := by
  induction evs with
  | nil => exact fun s hs _ => hs
  | cons e rest ih =>
      intro s hs hok
      have hok2 : (evOk s e && addsOk (step s e) rest) = true := hok
      rw [Bool.and_eq_true] at hok2
      exact ih (step s e) (invNF_step s e hs hok2.1) hok2.2

/-- C10 (amended).  In every run of the shell in which every `addjob`
along the way succeeds (the job table never overflows, so no child is left
unregistered), every invocation of the child-status handler that reaps a
stopped child finds its pid in the job table, and the unguarded
dereference of the `getjobpid` result never dereferences a null pointer:
the run never crashes. -/
theorem c10_amended_no_crash_without_failed_add (evs : List Ev)
    (hok : addsOk initShell evs = true) :
    (runShell initShell evs).crashed = false :=
  (invNF_run evs initShell invNF_initShell hok).notCrashed

/-- Trace for the C10 witness: a registered background job stops itself
and the handler reaps it. -/
def c10wtrace : List Ev :=
  [Ev.spawnA 8 true "y", Ev.spawnB, Ev.childStop 8 17, Ev.sigchld]

/-- Witness for C10 (amended) at a concrete no-failed-add run. -/
theorem c10_witness :
    (runShell initShell c10wtrace).crashed = false :=
  c10_amended_no_crash_without_failed_add c10wtrace (by decide)
